import Mathlib

/-!
Verification development for the Steam-Friends-OSINT crawl-and-analyze
pipeline.  The Python sources are shallowly embedded as executable Lean
functions:

* `scan_network` (src/steam_osint/scanner.py) — the bounded BFS crawl with
  resume support, followed by the summary/ban enrichment pass and the
  optional group-edge pass.  The directory service is abstracted as pure
  oracles (`friendsOf`, `summaryOf`, `bansOf`, `groupsOf`), matching the
  spec's treatment of the DirectoryClient as an external collaborator whose
  responses are fixed for a run.  The `while` loop is modelled with explicit
  fuel; a run "to completion" is a run whose final queue is empty.
* `RateLimiter.wait` (src/steam_osint/steam_api.py) — modelled over ℚ
  timestamps; clock reads and scheduling slack are inputs.
* `SteamAPI._get` / `get_friend_list` (src/steam_osint/steam_api.py) —
  modelled over an explicit HTTP outcome type.
* `_clean_edges` and the hub-threshold logic of `export_gephi`
  (src/vapora/enricher.py).
* `compute_probable_friends` (src/steam_osint/probable_friends.py).

Identities are Python strings (steamid64 values) and are modelled as
`String`.  Python dicts are modelled as association lists with dict
semantics: updating an existing key rewrites the entry in place, inserting
a fresh key appends at the end, so iteration order (insertion order) is
preserved exactly as in CPython.
-/

set_option maxHeartbeats 1000000

/-- Kind tag of an edge: the Python code uses the strings "friend" and
"group"; these are the only two values ever stored. -/
inductive EdgeKind where
  | friend
  | group
deriving DecidableEq, Repr

/-- One edge record `{a, b, type}` as appended by `scan_network`. -/
structure Edge where
  a : String
  b : String
  kind : EdgeKind
deriving DecidableEq, Repr

/-- Ban record stored under `nodes[sid]["bans"]`; the Python code reads the
API response dict with defaults `False`, `0`, `0`. -/
structure BanRec where
  vacBanned : Bool := false
  numVacBans : Nat := 0
  numGameBans : Nat := 0
deriving DecidableEq, Repr

/-- One node value of the `nodes` dict.  Fields other than `steamid` are
absent (`none`) until the corresponding phase fills them in. -/
structure Node where
  steamid : String
  friends : Option (List String) := none
  personaname : Option String := none
  profileurl : Option String := none
  is_public : Option Bool := none
  bans : Option BanRec := none
  groups : Option (List String) := none
deriving DecidableEq, Repr

/-- Player summary as returned by the summaries oracle: the fields of the
GetPlayerSummaries response that `scan_network` reads
(`personaname`, `profileurl`, `communityvisibilitystate`). -/
structure PSummary where
  personaname : Option String := none
  profileurl : Option String := none
  vis : Option Int := none
deriving DecidableEq, Repr

/-- The state dict produced and consumed by `scan_network`
(`seed`, `nodes`, `edges`, `visited`, `queue`, `meta.depth`). -/
structure ScanState where
  seed : String
  nodes : List (String × Node)
  edges : List Edge
  visited : List String
  queue : List (String × Nat)
  metaDepth : Nat
deriving DecidableEq, Repr

/-- The mutable state of the BFS `while` loop in `scan_network`
(`visited`, `nodes`, `edges`, `q`).  The three `…Log` fields are pure
instrumentation recording the loop's observable behaviour (processed pops,
all pops, all enqueues); they are not part of the Python state dict and no
branch of the loop reads them. -/
structure LoopState where
  visited : List String
  nodes : List (String × Node)
  edges : List Edge
  queue : List (String × Nat)
  log : List (String × Nat)
  popLog : List (String × Nat)
  enqLog : List (String × Nat)
deriving DecidableEq, Repr

/-- `if sid not in nodes: nodes[sid] = {"steamid": sid}` — dict insert of a
fresh key appends at the end. -/
def ensure_node (nodes : List (String × Node)) (sid : String) : List (String × Node) :=
  match nodes.lookup sid with
  | some _ => nodes
  | none => nodes ++ [(sid, { steamid := sid })]

/-- `nodes[sid]["friends"] = friends` — in-place value update. -/
def set_friends (nodes : List (String × Node)) (sid : String) (fs : List String) :
    List (String × Node) :=
  nodes.map fun kv => if kv.1 = sid then (kv.1, { kv.2 with friends := some fs }) else kv

/-- One iteration of the BFS `while` loop body of `scan_network`
(scanner.py lines 41–67): pop `(sid, d)`; skip if visited; otherwise mark
visited, ensure the node entry, fetch and store the friend list, enqueue
unvisited friends at `d+1` when `d < depth`, and append one friend edge per
returned friend. -/
def scan_step (friendsOf : String → List String) (depth : Nat) (s : LoopState) : LoopState :=
  match s.queue with
  | [] => s
  | (sid, d) :: rest =>
    if sid ∈ s.visited then
      { s with queue := rest, popLog := s.popLog ++ [(sid, d)] }
    else
      let visited' := s.visited ++ [sid]
      let friends := friendsOf sid
      let nodes' := set_friends (ensure_node s.nodes sid) sid friends
      let newQ :=
        if d < depth then
          (friends.filter fun f => !decide (f ∈ visited')).map fun f => (f, d + 1)
        else []
      { visited := visited'
        nodes := nodes'
        edges := s.edges ++ friends.map fun f => { a := sid, b := f, kind := EdgeKind.friend }
        queue := rest ++ newQ
        log := s.log ++ [(sid, d)]
        popLog := s.popLog ++ [(sid, d)]
        enqLog := s.enqLog ++ newQ }

/-- The BFS `while q and len(nodes) < max_nodes` loop, with explicit fuel.
The trailing `if len(nodes) >= max_nodes: break` of the Python body is
equivalent to re-checking the guard at the top since no statement follows
it. -/
def scan_loop (friendsOf : String → List String) (depth maxNodes : Nat) :
    Nat → LoopState → LoopState
  | 0, s => s
  | fuel + 1, s =>
    if s.queue ≠ [] ∧ s.nodes.length < maxNodes then
      scan_loop friendsOf depth maxNodes fuel (scan_step friendsOf depth s)
    else s

/-- Enrichment of one node from the summaries/bans oracles
(scanner.py lines 76–88): `is_public` is true exactly when the visibility
code is 3; the ban record is read with defaults. -/
def enrich_node (summaryOf : String → Option PSummary) (bansOf : String → Option BanRec)
    (sid : String) (n : Node) : Node :=
  let p := summaryOf sid
  { n with
    personaname := p.bind PSummary.personaname
    profileurl := p.bind PSummary.profileurl
    is_public := some (decide (p.bind PSummary.vis = some 3))
    bans := some ((bansOf sid).getD {}) }

/-- The summaries/bans pass `for sid in all_ids: …` — a per-key value
update over the whole node map, keys untouched. -/
def enrich_nodes (summaryOf : String → Option PSummary) (bansOf : String → Option BanRec)
    (ns : List (String × Node)) : List (String × Node) :=
  ns.map fun kv => (kv.1, enrich_node summaryOf bansOf kv.1 kv.2)

/-- `gmap.setdefault(gid, []).append(sid)`. -/
def gmap_add (g : List (String × List String)) (gid sid : String) :
    List (String × List String) :=
  match g.lookup gid with
  | some _ => g.map fun kv => if kv.1 = gid then (kv.1, kv.2 ++ [sid]) else kv
  | none => g ++ [(gid, [sid])]

/-- First-occurrence deduplication; models `list(set(members))` (CPython's
set iteration order is unspecified, so a canonical deterministic order is
chosen; all claims compare edge collections as unordered sets). -/
def dedup_first (seen : List String) : List String → List String
  | [] => []
  | x :: xs => if x ∈ seen then dedup_first seen xs else x :: dedup_first (seen ++ [x]) xs

/-- All ordered pairs `(mems[i], mems[j])` with `i < j`, as produced by the
nested loop `for i, a in enumerate(mems): for b in mems[i+1:]`. -/
def pairs_of : List String → List (String × String)
  | [] => []
  | x :: rest => (rest.map fun y => (x, y)) ++ pairs_of rest

/-- The group→member index built by the group pass (`gmap`): fold over the
node entries in key order; for every entry passing the `skip_private`
filter, append its identity under each of its group ids. -/
def group_phase_gmap (groupsOf : String → List String) (skipPrivate : Bool)
    (enr : List (String × Node)) : List (String × List String) :=
  enr.foldl
    (fun g kv =>
      if !skipPrivate || kv.2.is_public.getD false then
        (groupsOf kv.1).foldl (fun g2 gid => gmap_add g2 gid kv.1) g
      else g)
    []

/-- The group edges emitted from a group→member index: for every group with
at least two recorded members, one edge per unordered pair of distinct
members (`mems = list(set(members))`, then all index pairs i < j). -/
def grp_edges_of_gmap (gmap : List (String × List String)) : List Edge :=
  (gmap.map fun kv =>
    if kv.2.length < 2 then ([] : List Edge)
    else (pairs_of (dedup_first [] kv.2)).map fun p =>
      { a := p.1, b := p.2, kind := EdgeKind.group }).flatten

/-- The group pass of `scan_network` (scanner.py lines 91–107): for every
node passing the `skip_private` filter, fetch and store its groups and index
it under each of its group ids; then for every group with at least two
recorded members emit one group edge per unordered pair of distinct
members. -/
def group_phase (groupsOf : String → List String) (skipPrivate : Bool)
    (enr : List (String × Node)) : List (String × Node) × List Edge :=
  let pass : String × Node → Bool := fun kv => !skipPrivate || kv.2.is_public.getD false
  let nodes' := enr.map fun kv =>
    if pass kv then (kv.1, { kv.2 with groups := some (groupsOf kv.1) }) else kv
  (nodes', grp_edges_of_gmap (group_phase_gmap groupsOf skipPrivate enr))

/-- `state = resume_state or {…}` — the fresh state dict built when no
resume state is given. -/
def scan_init (seed : String) (depth : Nat) (resumeState : Option ScanState) : ScanState :=
  resumeState.getD
    { seed := seed, nodes := [], edges := [], visited := [], queue := [], metaDepth := depth }

/-- The loop's starting state: rehydrate `visited`, `nodes`, `edges`, `q`
from the state dict, seeding the queue with `(seed, 0)` when it is empty. -/
def scan_start (seed : String) (depth : Nat) (resumeState : Option ScanState) : LoopState :=
  let st0 := scan_init seed depth resumeState
  { visited := st0.visited
    nodes := st0.nodes
    edges := st0.edges
    queue := if st0.queue = [] then [(seed, 0)] else st0.queue
    log := []
    popLog := []
    enqLog := [] }

/-- The BFS phase of `scan_network`: the loop run from the rehydrated
state. -/
def scan_bfs (friendsOf : String → List String) (seed : String) (depth maxNodes : Nat)
    (resumeState : Option ScanState) (fuel : Nat) : LoopState :=
  scan_loop friendsOf depth maxNodes fuel (scan_start seed depth resumeState)

/-- `scan_network` (scanner.py lines 11–113): BFS crawl, then the
summaries/bans enrichment over every discovered node, then (optionally) the
group-edge pass, finally writing `visited`, `nodes`, `edges`, `queue` back
into the state dict.  `rpm` is accepted and unused, exactly as in the
source (the rate limit lives inside the API client). -/
def scan_network (friendsOf : String → List String) (summaryOf : String → Option PSummary)
    (bansOf : String → Option BanRec) (groupsOf : String → List String)
    (seed : String) (depth _rpm maxNodes : Nat) (skipPrivate includeGroupLinks : Bool)
    (resumeState : Option ScanState) (fuel : Nat) : ScanState :=
  let st0 := scan_init seed depth resumeState
  let B := scan_bfs friendsOf seed depth maxNodes resumeState fuel
  let enr := enrich_nodes summaryOf bansOf B.nodes
  let gp := if includeGroupLinks then group_phase groupsOf skipPrivate enr else (enr, [])
  { seed := st0.seed
    nodes := gp.1
    edges := B.edges ++ gp.2
    visited := B.visited
    queue := B.queue
    metaDepth := st0.metaDepth }

/-- Canonical key of an edge: the unordered endpoint pair (sorted as
Python's `sorted((a, b))` sorts the two strings) together with the kind. -/
def edge_key (e : Edge) : String × String × EdgeKind :=
  if e.b < e.a then (e.b, e.a, e.kind) else (e.a, e.b, e.kind)

/-- `_clean_edges` worker (enricher.py lines 12–28): drop edges with a
falsy endpoint (the empty string models Python falsiness of a missing or
empty id), drop edges with an endpoint outside the node map, and drop
duplicates of an already-seen `(unordered pair, kind)` key. -/
def clean_edges_go (keep : List String) (seen : List (String × String × EdgeKind)) :
    List Edge → List Edge
  | [] => []
  | e :: rest =>
    if e.a = "" ∨ e.b = "" then clean_edges_go keep seen rest
    else if ¬(e.a ∈ keep ∧ e.b ∈ keep) then clean_edges_go keep seen rest
    else if edge_key e ∈ seen then clean_edges_go keep seen rest
    else e :: clean_edges_go keep (seen ++ [edge_key e]) rest

/-- `_clean_edges(nodes, edges)`. -/
def clean_edges (nodes : List (String × Node)) (edges : List Edge) : List Edge :=
  clean_edges_go (nodes.map Prod.fst) [] edges

/-- Key set of a node map, for set-level comparisons. -/
def key_finset (ns : List (String × Node)) : Finset String :=
  (ns.map Prod.fst).toFinset

/-- Edge collection viewed as an unordered, deduplicated set of canonical
keys. -/
def edge_key_finset (es : List Edge) : Finset (String × String × EdgeKind) :=
  (es.map edge_key).toFinset

/-- The `skip_private` filter applied to an enriched node, expressed on the
identity alone: after `enrich_nodes`, a node's `is_public` field is a pure
function of its identity and the summaries oracle. -/
def pass_key (summaryOf : String → Option PSummary) (skipPrivate : Bool) (sid : String) : Bool :=
  !skipPrivate || decide ((summaryOf sid).bind PSummary.vis = some 3)

/-- The group→member index of the group pass, as a function of the node key
list (in key order). -/
def gmap_of_keys (groupsOf : String → List String) (passK : String → Bool)
    (ids : List String) : List (String × List String) :=
  ids.foldl
    (fun g sid =>
      if passK sid then (groupsOf sid).foldl (fun g2 gid => gmap_add g2 gid sid) g else g)
    []

/-- The group edges emitted by the group pass, as a function of the node
key list. -/
def grp_edges_of_keys (groupsOf : String → List String) (passK : String → Bool)
    (ids : List String) : List Edge :=
  grp_edges_of_gmap (gmap_of_keys groupsOf passK ids)

/-! ### Model of `SteamAPI._get` and `get_friend_list`
(src/steam_osint/steam_api.py) -/

/-- A JSON value, the possible results of `Response.json()`. -/
inductive JVal where
  | jnull
  | jbool (b : Bool)
  | jnum (n : Int)
  | jstr (s : String)
  | jarr (xs : List JVal)
  | jobj (fields : List (String × JVal))

/-- Python truthiness of a JSON value (`not data`). -/
def jtruthy : JVal → Bool
  | .jnull => false
  | .jbool b => b
  | .jnum n => n != 0
  | .jstr s => !(s = "")
  | .jarr xs => !xs.isEmpty
  | .jobj fs => !fs.isEmpty

/-- Python `k in d`: key test on dicts, element test on lists, substring
test on strings, `TypeError` otherwise. -/
def jcontains (d : JVal) (k : String) : Except String Bool :=
  match d with
  | .jobj fs => .ok (fs.any fun kv => kv.1 = k)
  | .jarr xs => .ok (xs.any fun x => match x with | .jstr s => decide (s = k) | _ => false)
  | .jstr s => .ok (decide (k.toList <:+: s.toList))
  | _ => .error "TypeError"

/-- Python `d[k]`: raises `KeyError` / `TypeError` when absent or not a
dict. -/
def jget (d : JVal) (k : String) : Except String JVal :=
  match d with
  | .jobj fs =>
    match fs.lookup k with
    | some v => .ok v
    | none => .error "KeyError"
  | _ => .error "TypeError"

/-- Python `d.get(k, dflt)`. -/
def jget_default (d : JVal) (k : String) (dflt : JVal) : Except String JVal :=
  match d with
  | .jobj fs => .ok ((fs.lookup k).getD dflt)
  | _ => .error "AttributeError"

/-- Python `for x in d`: list elements, dict keys, string characters,
`TypeError` otherwise. -/
def jiter (d : JVal) : Except String (List JVal) :=
  match d with
  | .jarr xs => .ok xs
  | .jobj fs => .ok (fs.map fun kv => .jstr kv.1)
  | .jstr s => .ok (s.toList.map fun c => .jstr (String.mk [c]))
  | _ => .error "TypeError"

/-- One HTTP call outcome seen by `SteamAPI._get`: a transport-level
failure (any `requests.RequestException`), or a response with a status code
and a body; `body = none` models a payload that fails JSON decoding
(`Response.json()` raises `requests.exceptions.JSONDecodeError`, a
`RequestException` subclass since requests 2.27, caught by the same
`except` clause). -/
inductive HttpResult where
  | netError
  | response (status : Nat) (body : Option JVal)

/-- `SteamAPI._get` (steam_api.py lines 34–44): `None` on a request
exception, a non-200 status, or an undecodable body; the parsed JSON
otherwise. -/
def api_get (r : HttpResult) : Option JVal :=
  match r with
  | .netError => none
  | .response status body => if status ≠ 200 then none else body

/-- `SteamAPI.get_friend_list` (steam_api.py lines 69–76) applied to the
outcome of its one `_get` call.  The `Except` layer records where the
Python code would raise (malformed *interior* structure); the values of the
returned list are the raw `f["steamid"]` JSON values. -/
def get_friend_list (r : HttpResult) : Except String (List JVal) :=
  match api_get r with
  | none => .ok []
  | some data =>
    if !jtruthy data then .ok []
    else
      match jcontains data "friendslist" with
      | .error e => .error e
      | .ok false => .ok []
      | .ok true =>
        match jget data "friendslist" with
        | .error e => .error e
        | .ok fl =>
          match jget_default fl "friends" (.jarr []) with
          | .error e => .error e
          | .ok friends =>
            match jiter friends with
            | .error e => .error e
            | .ok fs => fs.mapM fun f => jget f "steamid"

/-! ### Model of `RateLimiter` (src/steam_osint/steam_api.py lines 10–23)

Timestamps are rationals.  One `wait()` call is driven by two scheduling
inputs: `d.1 ≥ 0`, the elapsed time between the previously recorded
timestamp and this call's first `time.monotonic()` read, and `d.2 ≥ 0`, the
extra elapsed time between the end of the (possibly zero-length) sleep and
the second `time.monotonic()` read whose value is recorded.  This covers
every monotone schedule, including sleep overshoot. -/

/-- `while self.calls and now - self.calls[0] > self.window: popleft()`. -/
def rl_drop_old (now : ℚ) (calls : List ℚ) : List ℚ :=
  calls.dropWhile fun t => decide (now - t > 60)

/-- `sleep_for = self.window - (now - self.calls[0]) + 0.01`, clamped by
`max(0.0, ·)` as in the `time.sleep` call. -/
def rl_sleep_for (now : ℚ) (kept : List ℚ) : ℚ :=
  match kept with
  | [] => 0
  | t0 :: _ => max 0 (60 - (now - t0) + 1 / 100)

/-- The most recently recorded timestamp (0 before the first call — the
monotonic clock's origin is arbitrary). -/
def rl_last : List ℚ → ℚ
  | [] => 0
  | [t] => t
  | _ :: t :: rest => rl_last (t :: rest)

/-- One `wait()` call: state is `(calls deque, full log of recorded
timestamps)`; returns the new state and the time actually slept. -/
def rl_wait (R : Nat) (st : List ℚ × List ℚ) (d : ℚ × ℚ) : (List ℚ × List ℚ) × ℚ :=
  let now := rl_last st.2 + d.1
  let kept := rl_drop_old now st.1
  let slept := if R ≤ kept.length then rl_sleep_for now kept else 0
  let T := now + slept + d.2
  ((kept ++ [T], st.2 ++ [T]), slept)

/-- A sequential run of `wait()` calls from a fresh limiter. -/
def rl_run (R : Nat) (steps : List (ℚ × ℚ)) : List ℚ × List ℚ :=
  steps.foldl (fun st d => (rl_wait R st d).1) ([], [])

/-- The sleep durations of a run, in call order. -/
def rl_sleeps (R : Nat) (steps : List (ℚ × ℚ)) : List ℚ :=
  (steps.foldl (fun acc d => ((rl_wait R acc.1 d).1, acc.2 ++ [(rl_wait R acc.1 d).2]))
    (([], []), [])).2

/-- Number of recorded timestamps inside the closed sliding window
`[w, w + 60]`. -/
def window_count (log : List ℚ) (w : ℚ) : Nat :=
  (log.filter fun t => decide (w ≤ t ∧ t ≤ w + 60)).length

/-! ### Model of the hub classification in `export_gephi`
(src/vapora/enricher.py lines 59–70 and 91) -/

/-- Stable descending insertion, modelling Python's stable
`sorted(…, reverse=True)`. -/
def insert_desc (x : ℚ) : List ℚ → List ℚ
  | [] => [x]
  | y :: ys => if y ≤ x then x :: y :: ys else y :: insert_desc x ys

/-- `sorted(values, reverse=True)`. -/
def sort_desc : List ℚ → List ℚ
  | [] => []
  | x :: xs => insert_desc x (sort_desc xs)

/-- The hub threshold: `sorted(bet.values(), reverse=True)[max(0,
int(len(bet) * hub_percentile) - 1)]` when the betweenness map is
non-empty, `1.0` otherwise.  Python's `int()` truncation coincides with
`Int.floor` on the non-negative products arising here (the percentile is in
(0,1)); out-of-range indexing (impossible for a percentile below 1) is
totalised with default 0. -/
def hub_cutoff (bet : List (String × ℚ)) (p : ℚ) : ℚ :=
  if bet.isEmpty then 1
  else (sort_desc (bet.map Prod.snd)).getD
    (Int.toNat (max 0 (Int.floor ((bet.length : ℚ) * p) - 1))) 0

/-- The hub cut-off as the spec phrases it: the value at 0-based rank
`max(0, floor(N·p) − 1)` of the descending betweenness values (ℕ-level
truncated subtraction realises the `max(0, ·)`). -/
def hub_cutoff_spec (bet : List (String × ℚ)) (p : ℚ) : ℚ :=
  if bet.isEmpty then 1
  else (sort_desc (bet.map Prod.snd)).getD (Nat.floor ((bet.length : ℚ) * p) - 1) 0

/-- `is_hub = bet.get(sid, 0.0) >= thresh if bet else False`. -/
def is_hub (bet : List (String × ℚ)) (p : ℚ) (sid : String) : Bool :=
  if bet.isEmpty then false
  else decide (hub_cutoff bet p ≤ (bet.lookup sid).getD 0)

/-! Modelled from the spec: `nx.betweenness_centrality` is an external
library (networkx), not part of this repository's sources; §4.3 of the spec
prescribes "standard shortest-path-based betweenness over the unweighted
simple graph", computed per vertex.  The following is that standard
definition (unnormalised), executable by exhaustive simple-path
enumeration; the facts used about it (the map carries one entry per vertex;
an edge-free graph yields value 0 everywhere) are normalisation
independent. -/

/-- Adjacency of the simple undirected graph built from an edge list. -/
def gadj (E : List (String × String)) (v w : String) : Bool :=
  !decide (v = w) && E.any fun e => (decide (e.1 = v) && decide (e.2 = w)) ||
    (decide (e.1 = w) && decide (e.2 = v))

/-- All simple paths from `cur` to `t` avoiding `avoid`, with fuel. -/
def paths_go (E : List (String × String)) (V : List String) (t : String) :
    Nat → String → List String → List (List String)
  | 0, cur, _ => if cur = t then [[cur]] else []
  | fuel + 1, cur, avoid =>
    if cur = t then [[cur]]
    else ((V.filter fun w => gadj E cur w && !decide (w ∈ avoid)).map fun w =>
      (paths_go E V t fuel w (cur :: avoid)).map fun p => cur :: p).flatten

/-- The shortest simple paths between two vertices. -/
def shortest_paths (E : List (String × String)) (V : List String) (s t : String) :
    List (List String) :=
  let ps := paths_go E V t V.length s []
  match (ps.map List.length).min? with
  | none => []
  | some m => ps.filter fun p => p.length = m

/-- Modelled from the spec: per-vertex betweenness centrality,
`∑_{s≠t, v∉{s,t}} σ_st(v)/σ_st` (contribution 0 for unreachable pairs). -/
def betweenness (V : List String) (E : List (String × String)) : List (String × ℚ) :=
  V.map fun v =>
    (v,
      (V.map fun s =>
        (V.map fun t =>
          if s = t ∨ v = s ∨ v = t then (0 : ℚ)
          else
            let ps := shortest_paths E V s t
            if ps.length = 0 then 0
            else ((ps.filter fun p => decide (v ∈ p)).length : ℚ) / (ps.length : ℚ)).sum).sum)

/-- The betweenness map `export_gephi` computes: vertices are the node-map
keys, edges are the cleaned edges. -/
def hub_bet (nodes : List (String × Node)) (edges : List Edge) : List (String × ℚ) :=
  betweenness (nodes.map Prod.fst) ((clean_edges nodes edges).map fun e => (e.a, e.b))

/-! ### Model of `compute_probable_friends`
(src/steam_osint/probable_friends.py lines 9–56) -/

/-- One output row `(candidate, score, mutual, jaccard, shared_groups,
shared_games)`. -/
structure PFRow where
  candidate : String
  score : ℚ
  mutualCount : Nat
  jaccard : ℚ
  sharedGroups : Nat
  sharedGames : Nat
deriving DecidableEq, Repr

/-- Stable descending insertion by score (ties keep earlier rows first),
modelling Python's stable `rows.sort(key=…, reverse=True)`. -/
def insert_row (x : PFRow) : List PFRow → List PFRow
  | [] => [x]
  | y :: ys => if y.score ≤ x.score then x :: y :: ys else y :: insert_row x ys

/-- Stable descending sort of the rows. -/
def sort_rows : List PFRow → List PFRow
  | [] => []
  | x :: xs => insert_row x (sort_rows xs)

/-- The friend list stored on a node of the state (empty when absent),
viewed as a set via first-occurrence dedup (`set(...)`). -/
def node_friend_set (st : ScanState) (sid : String) : List String :=
  dedup_first [] (((st.nodes.lookup sid).bind Node.friends).getD [])

/-- The group list stored on a node of the state, as a set. -/
def node_group_set (st : ScanState) (sid : String) : List String :=
  dedup_first [] (((st.nodes.lookup sid).bind Node.groups).getD [])

/-- `compute_probable_friends(state, out_dir, weights)` without the CSV
serialisation: candidates are the seed's friend set; per candidate compute
the mutual count among the seed's friends, the Jaccard similarity with the
seed's friend set (union size floored at 1), the shared-group count, and
the weighted score (weight defaults 1.0, 1.0, 0.5, 0.0); rows are sorted by
score descending. -/
def compute_probable_friends (st : ScanState) (w : String → Option ℚ) : List PFRow :=
  let seedFriends := node_friend_set st st.seed
  let neigh : String → List String := fun sid => node_friend_set st sid
  let rows := seedFriends.map fun c =>
    let mutualCount := (seedFriends.filter fun fr => decide (c ∈ neigh fr)).length
    let a := neigh c
    let inter := (a.filter fun x => decide (x ∈ seedFriends)).length
    let union0 := (dedup_first [] (a ++ seedFriends)).length
    let union := if union0 = 0 then 1 else union0
    let jacc : ℚ := (inter : ℚ) / (union : ℚ)
    let sg := ((node_group_set st c).filter fun g =>
      decide (g ∈ node_group_set st st.seed)).length
    let games : Nat := 0
    let score := (mutualCount : ℚ) * ((w "mutual").getD 1) + jacc * ((w "jaccard").getD 1)
      + (sg : ℚ) * ((w "groups").getD (1 / 2)) + (games : ℚ) * ((w "games").getD 0)
    { candidate := c, score := score, mutualCount := mutualCount, jaccard := jacc,
      sharedGroups := sg, sharedGames := games }
  sort_rows rows

/-! ### Basic facts about the BFS loop -/

/-- The loop guard `q and len(nodes) < max_nodes`. -/
def loop_guard (maxNodes : Nat) (s : LoopState) : Prop :=
  s.queue ≠ [] ∧ s.nodes.length < maxNodes

instance (maxNodes : Nat) (s : LoopState) : Decidable (loop_guard maxNodes s) := by
  unfold loop_guard; infer_instance

/-- The part of the loop state the loop control actually reads: visited
set, queue, and the key list of the node map (node *values* and the edge
list are write-only for the loop). -/
def LoopAgree (s t : LoopState) : Prop :=
  s.visited = t.visited ∧ s.queue = t.queue ∧ s.nodes.map Prod.fst = t.nodes.map Prod.fst

/-- The BFS depth invariant: queue depths are non-decreasing and pairwise
within one of each other; processed depths are non-decreasing and bounded
by every queued depth. -/
def depth_inv (s : LoopState) : Prop :=
  List.Sorted (· ≤ ·) (s.queue.map Prod.snd) ∧
    (∀ e1 ∈ s.queue, ∀ e2 ∈ s.queue, e1.2 ≤ e2.2 + 1) ∧
    List.Sorted (· ≤ ·) (s.log.map Prod.snd) ∧
    ∀ t ∈ s.log, ∀ e ∈ s.queue, t.2 ≤ e.2

/-- Invariant of the limiter state `(calls, log)`: the deque is a suffix of
the log whose dropped part is more than 60 seconds older than the latest
recorded timestamp; the log is time-ordered; and any two recorded
timestamps R apart differ by more than 60 seconds. -/
def RLInv (R : Nat) (st : List ℚ × List ℚ) : Prop :=
  (∃ pre, st.2 = pre ++ st.1 ∧ ∀ t ∈ pre, rl_last st.2 - t > 60) ∧
    List.Sorted (· ≤ ·) st.2 ∧
    ∀ i j (hi : i < st.2.length) (hj : j < st.2.length), i + R ≤ j →
      st.2.get ⟨j, hj⟩ - st.2.get ⟨i, hi⟩ > 60

theorem scan_loop_zero (friendsOf : String → List String) (depth maxNodes : Nat)
    (s : LoopState) : scan_loop friendsOf depth maxNodes 0 s = s := rfl

theorem scan_loop_succ_of_guard (friendsOf : String → List String) (depth maxNodes fuel : Nat)
    (s : LoopState) (h : loop_guard maxNodes s) :
    scan_loop friendsOf depth maxNodes (fuel + 1) s =
      scan_loop friendsOf depth maxNodes fuel (scan_step friendsOf depth s) := by
  unfold loop_guard at h
  simp [scan_loop, h.1, h.2]

theorem scan_loop_of_not_guard (friendsOf : String → List String) (depth maxNodes fuel : Nat)
    (s : LoopState) (h : ¬ loop_guard maxNodes s) :
    scan_loop friendsOf depth maxNodes fuel s = s := by
  cases fuel with
  | zero => rfl
  | succ n =>
    unfold loop_guard at h
    rw [scan_loop]
    simp only [ite_eq_right_iff]
    intro hg
    exact absurd hg h

theorem scan_loop_add (friendsOf : String → List String) (depth maxNodes : Nat)
    (a b : Nat) (s : LoopState) :
    scan_loop friendsOf depth maxNodes (a + b) s =
      scan_loop friendsOf depth maxNodes b (scan_loop friendsOf depth maxNodes a s) := by
  induction a generalizing s with
  | zero => simp [scan_loop_zero, Nat.zero_add]
  | succ n ih =>
    by_cases h : loop_guard maxNodes s
    · have h1 : n + 1 + b = (n + b) + 1 := by omega
      rw [h1, scan_loop_succ_of_guard _ _ _ _ _ h, scan_loop_succ_of_guard _ _ _ _ _ h, ih]
    · rw [scan_loop_of_not_guard _ _ _ _ _ h, scan_loop_of_not_guard _ _ _ _ _ h,
        scan_loop_of_not_guard _ _ _ _ _ h]

/-- Two completed runs (empty final queue) from the same state agree,
whatever fuel each used. -/
theorem scan_loop_complete_unique (friendsOf : String → List String) (depth maxNodes : Nat)
    (f g : Nat) (s : LoopState)
    (hf : (scan_loop friendsOf depth maxNodes f s).queue = [])
    (hg : (scan_loop friendsOf depth maxNodes g s).queue = []) :
    scan_loop friendsOf depth maxNodes f s = scan_loop friendsOf depth maxNodes g s := by
  have hf' : ¬ loop_guard maxNodes (scan_loop friendsOf depth maxNodes f s) := by
    unfold loop_guard; simp [hf]
  have hg' : ¬ loop_guard maxNodes (scan_loop friendsOf depth maxNodes g s) := by
    unfold loop_guard; simp [hg]
  have h1 := scan_loop_add friendsOf depth maxNodes f g s
  have h2 := scan_loop_add friendsOf depth maxNodes g f s
  rw [scan_loop_of_not_guard _ _ _ _ _ hf'] at h1
  rw [scan_loop_of_not_guard _ _ _ _ _ hg'] at h2
  rw [Nat.add_comm] at h2
  rw [← h1, h2]

/-- Running with a lower node cap is a stage of running with a higher one:
some amount of fuel under the higher cap reproduces the state exactly. -/
theorem scan_loop_cap_mono (friendsOf : String → List String) (depth K1 K2 : Nat)
    (hK : K1 ≤ K2) (fuel : Nat) (s : LoopState) :
    ∃ fuel', scan_loop friendsOf depth K1 fuel s = scan_loop friendsOf depth K2 fuel' s := by
  induction fuel generalizing s with
  | zero => exact ⟨0, rfl⟩
  | succ n ih =>
    by_cases h : loop_guard K1 s
    · obtain ⟨f', hf'⟩ := ih (scan_step friendsOf depth s)
      have h2 : loop_guard K2 s := ⟨h.1, lt_of_lt_of_le h.2 hK⟩
      exact ⟨f' + 1, by
        rw [scan_loop_succ_of_guard _ _ _ _ _ h, scan_loop_succ_of_guard _ _ _ _ _ h2, hf']⟩
    · exact ⟨0, by rw [scan_loop_of_not_guard _ _ _ _ _ h, scan_loop_zero]⟩

theorem set_friends_keys (ns : List (String × Node)) (sid : String) (fs : List String) :
    (set_friends ns sid fs).map Prod.fst = ns.map Prod.fst := by
  unfold set_friends
  rw [List.map_map]
  apply List.map_congr_left
  intro kv _
  by_cases h : kv.1 = sid <;> simp [h]

theorem ensure_node_keys (ns : List (String × Node)) (sid : String) :
    (ensure_node ns sid).map Prod.fst = ns.map Prod.fst ∨
      (ensure_node ns sid).map Prod.fst = ns.map Prod.fst ++ [sid] := by
  unfold ensure_node
  cases ns.lookup sid with
  | some v => exact Or.inl rfl
  | none => right; simp

theorem scan_step_keys (friendsOf : String → List String) (depth : Nat) (s : LoopState) :
    (scan_step friendsOf depth s).nodes.map Prod.fst = s.nodes.map Prod.fst ∨
      ∃ sid, (scan_step friendsOf depth s).nodes.map Prod.fst = s.nodes.map Prod.fst ++ [sid] := by
  unfold scan_step
  cases hq : s.queue with
  | nil => exact Or.inl rfl
  | cons hd rest =>
    obtain ⟨sid, d⟩ := hd
    by_cases hv : sid ∈ s.visited
    · simp [hv]
    · simp only [hv, if_false, set_friends_keys]
      rcases ensure_node_keys s.nodes sid with h | h
      · exact Or.inl h
      · exact Or.inr ⟨sid, h⟩

theorem scan_step_keys_isPre (friendsOf : String → List String) (depth : Nat) (s : LoopState) :
    s.nodes.map Prod.fst <+: (scan_step friendsOf depth s).nodes.map Prod.fst := by
  rcases scan_step_keys friendsOf depth s with h | ⟨sid, h⟩
  · rw [h]
  · rw [h]; exact List.prefix_append _ _

theorem scan_loop_keys_isPre (friendsOf : String → List String) (depth maxNodes fuel : Nat)
    (s : LoopState) :
    s.nodes.map Prod.fst <+: (scan_loop friendsOf depth maxNodes fuel s).nodes.map Prod.fst := by
  induction fuel generalizing s with
  | zero => rw [scan_loop_zero]
  | succ n ih =>
    by_cases h : loop_guard maxNodes s
    · rw [scan_loop_succ_of_guard _ _ _ _ _ h]
      exact (scan_step_keys_isPre friendsOf depth s).trans (ih _)
    · rw [scan_loop_of_not_guard _ _ _ _ _ h]

theorem scan_step_nodes_len (friendsOf : String → List String) (depth : Nat) (s : LoopState) :
    (scan_step friendsOf depth s).nodes.length ≤ s.nodes.length + 1 := by
  have h := scan_step_keys_isPre friendsOf depth s
  have h2 := scan_step_keys friendsOf depth s
  rcases h2 with h2 | ⟨sid, h2⟩ <;>
    [have := congrArg List.length h2; have := congrArg List.length h2] <;>
    simp only [List.length_map, List.length_append, List.length_singleton] at this <;> omega

/-- Resource bound of the BFS loop: the node map never grows past the cap,
starting from any state. -/
theorem scan_loop_nodes_le (friendsOf : String → List String) (depth maxNodes fuel : Nat)
    (s : LoopState) :
    (scan_loop friendsOf depth maxNodes fuel s).nodes.length ≤
      max maxNodes s.nodes.length := by
  induction fuel generalizing s with
  | zero => rw [scan_loop_zero]; exact le_max_right _ _
  | succ n ih =>
    by_cases h : loop_guard maxNodes s
    · rw [scan_loop_succ_of_guard _ _ _ _ _ h]
      have h1 := ih (scan_step friendsOf depth s)
      have h2 := scan_step_nodes_len friendsOf depth s
      have h3 := h.2
      omega
    · rw [scan_loop_of_not_guard _ _ _ _ _ h]; exact le_max_right _ _

theorem scan_step_visited_isPre (friendsOf : String → List String) (depth : Nat)
    (s : LoopState) : s.visited <+: (scan_step friendsOf depth s).visited := by
  unfold scan_step
  cases hq : s.queue with
  | nil => exact List.prefix_rfl
  | cons hd rest =>
    obtain ⟨sid, d⟩ := hd
    by_cases hv : sid ∈ s.visited
    · simp [hv]
    · simp only [hv, if_false]
      exact List.prefix_append _ _

theorem scan_loop_visited_isPre (friendsOf : String → List String) (depth maxNodes fuel : Nat)
    (s : LoopState) :
    s.visited <+: (scan_loop friendsOf depth maxNodes fuel s).visited := by
  induction fuel generalizing s with
  | zero => rw [scan_loop_zero]
  | succ n ih =>
    by_cases h : loop_guard maxNodes s
    · rw [scan_loop_succ_of_guard _ _ _ _ _ h]
      exact (scan_step_visited_isPre friendsOf depth s).trans (ih _)
    · rw [scan_loop_of_not_guard _ _ _ _ _ h]

/-- Everything processed (friend list fetched) during a run was either
already in the incoming log or was unvisited when the run began. -/
theorem scan_loop_log_fresh (friendsOf : String → List String) (depth maxNodes fuel : Nat)
    (s : LoopState) (e : String × Nat)
    (he : e ∈ (scan_loop friendsOf depth maxNodes fuel s).log) :
    e ∈ s.log ∨ e.1 ∉ s.visited := by
  induction fuel generalizing s with
  | zero => rw [scan_loop_zero] at he; exact Or.inl he
  | succ n ih =>
    by_cases h : loop_guard maxNodes s
    · rw [scan_loop_succ_of_guard _ _ _ _ _ h] at he
      rcases ih _ he with h1 | h1
      · -- the entry is in the step's log: either old, or the freshly processed pop
        unfold scan_step at h1
        cases hq : s.queue with
        | nil => rw [hq] at h1; exact Or.inl h1
        | cons hd rest =>
          obtain ⟨sid, d⟩ := hd
          rw [hq] at h1
          by_cases hv : sid ∈ s.visited
          · simp only [hv, if_true] at h1; exact Or.inl h1
          · simp only [hv, if_false, List.mem_append, List.mem_singleton] at h1
            rcases h1 with h1 | h1
            · exact Or.inl h1
            · right; rw [h1]; exact hv
      · -- unvisited after the step, hence unvisited before (visited only grows)
        right
        intro hv
        exact h1 ((scan_step_visited_isPre friendsOf depth s).subset hv)
    · rw [scan_loop_of_not_guard _ _ _ _ _ h] at he
      exact Or.inl he

theorem lookup_isSome_iff {β : Type} (l : List (String × β)) (k : String) :
    (l.lookup k).isSome = true ↔ k ∈ l.map Prod.fst := by
  induction l with
  | nil => simp [List.lookup]
  | cons kv rest ih =>
    obtain ⟨k', v⟩ := kv
    by_cases h : k = k'
    · simp [List.lookup, h]
    · have hb : (k == k') = false := by simp [h]
      simp [List.lookup, hb, h, ih]

theorem scan_step_queue_nil (friendsOf : String → List String) (depth : Nat) (s : LoopState)
    (h : s.queue = []) : scan_step friendsOf depth s = s := by
  unfold scan_step; rw [h]

theorem ensure_node_keys_congr (ns ms : List (String × Node)) (sid : String)
    (h : ns.map Prod.fst = ms.map Prod.fst) :
    (ensure_node ns sid).map Prod.fst = (ensure_node ms sid).map Prod.fst := by
  unfold ensure_node
  have hiff : (ns.lookup sid).isSome = true ↔ (ms.lookup sid).isSome = true := by
    rw [lookup_isSome_iff, lookup_isSome_iff, h]
  cases hn : ns.lookup sid with
  | some v =>
    cases hm : ms.lookup sid with
    | some w => exact h
    | none => rw [hn, hm] at hiff; simp at hiff
  | none =>
    cases hm : ms.lookup sid with
    | some w => rw [hn, hm] at hiff; simp at hiff
    | none => simp [h]

/-- One loop iteration preserves `LoopAgree` and appends the same block of
edges on both sides. -/
theorem scan_step_agree (friendsOf : String → List String) (depth : Nat) (s t : LoopState)
    (h : LoopAgree s t) :
    LoopAgree (scan_step friendsOf depth s) (scan_step friendsOf depth t) ∧
      ∃ δ, (scan_step friendsOf depth s).edges = s.edges ++ δ ∧
        (scan_step friendsOf depth t).edges = t.edges ++ δ := by
  obtain ⟨hv, hq, hk⟩ := h
  cases hsq : s.queue with
  | nil =>
    have htq : t.queue = [] := by rw [← hq, hsq]
    rw [scan_step_queue_nil _ _ _ hsq, scan_step_queue_nil _ _ _ htq]
    exact ⟨⟨hv, hq, hk⟩, [], by simp, by simp⟩
  | cons hd rest =>
    obtain ⟨sid, d⟩ := hd
    have htq : t.queue = (sid, d) :: rest := by rw [← hq, hsq]
    by_cases hvis : sid ∈ s.visited
    · have hvist : sid ∈ t.visited := by rw [← hv]; exact hvis
      unfold scan_step
      rw [hsq, htq]
      simp only [hvis, hvist, if_true]
      exact ⟨⟨hv, rfl, hk⟩, [], by simp, by simp⟩
    · have hvist : sid ∉ t.visited := by rw [← hv]; exact hvis
      unfold scan_step
      rw [hsq, htq]
      simp only [hvis, hvist, if_false]
      refine ⟨⟨?_, ?_, ?_⟩, ?_⟩
      · simp [hv]
      · simp [hv]
      · simp only [set_friends_keys]
        exact ensure_node_keys_congr _ _ _ hk
      · exact ⟨(friendsOf sid).map fun f => { a := sid, b := f, kind := EdgeKind.friend },
          rfl, rfl⟩

/-- The BFS loop is determined, up to the observable part, by the
observable part of its input; the edges appended are identical. -/
theorem scan_loop_agree (friendsOf : String → List String) (depth maxNodes fuel : Nat)
    (s t : LoopState) (h : LoopAgree s t) :
    LoopAgree (scan_loop friendsOf depth maxNodes fuel s)
        (scan_loop friendsOf depth maxNodes fuel t) ∧
      ∃ δ, (scan_loop friendsOf depth maxNodes fuel s).edges = s.edges ++ δ ∧
        (scan_loop friendsOf depth maxNodes fuel t).edges = t.edges ++ δ := by
  induction fuel generalizing s t with
  | zero =>
    rw [scan_loop_zero, scan_loop_zero]
    exact ⟨h, [], by simp, by simp⟩
  | succ n ih =>
    have hguard : loop_guard maxNodes s ↔ loop_guard maxNodes t := by
      unfold loop_guard
      have hlen : s.nodes.length = t.nodes.length := by
        have := congrArg List.length h.2.2
        simpa using this
      rw [h.2.1, hlen]
    by_cases hg : loop_guard maxNodes s
    · have hgt : loop_guard maxNodes t := hguard.mp hg
      rw [scan_loop_succ_of_guard _ _ _ _ _ hg, scan_loop_succ_of_guard _ _ _ _ _ hgt]
      obtain ⟨hstep, δ1, hδ1s, hδ1t⟩ := scan_step_agree friendsOf depth s t h
      obtain ⟨hloop, δ2, hδ2s, hδ2t⟩ := ih _ _ hstep
      refine ⟨hloop, δ1 ++ δ2, ?_, ?_⟩
      · rw [hδ2s, hδ1s, List.append_assoc]
      · rw [hδ2t, hδ1t, List.append_assoc]
    · have hgt : ¬ loop_guard maxNodes t := fun ht => hg (hguard.mpr ht)
      rw [scan_loop_of_not_guard _ _ _ _ _ hg, scan_loop_of_not_guard _ _ _ _ _ hgt]
      exact ⟨h, [], by simp, by simp⟩

theorem enrich_nodes_keys (summaryOf : String → Option PSummary)
    (bansOf : String → Option BanRec) (ns : List (String × Node)) :
    (enrich_nodes summaryOf bansOf ns).map Prod.fst = ns.map Prod.fst := by
  simp [enrich_nodes, List.map_map]

theorem group_phase_keys (groupsOf : String → List String) (skipPrivate : Bool)
    (enr : List (String × Node)) :
    (group_phase groupsOf skipPrivate enr).1.map Prod.fst = enr.map Prod.fst := by
  unfold group_phase
  simp only [List.map_map]
  apply List.map_congr_left
  intro kv _
  simp only [Function.comp_apply]
  split <;> simp

theorem ensure_node_keys_of_not_mem (ns : List (String × Node)) (sid : String)
    (h : sid ∉ ns.map Prod.fst) :
    (ensure_node ns sid).map Prod.fst = ns.map Prod.fst ++ [sid] := by
  unfold ensure_node
  cases hl : ns.lookup sid with
  | some v =>
    exact absurd ((lookup_isSome_iff ns sid).mp (by rw [hl]; rfl)) h
  | none => simp

/-- Invariant: from a state whose node keys coincide (as a set) with its
visited set, every loop step preserves that coincidence — an identity gets
a node entry exactly when it is popped, fetched and marked visited. -/
theorem scan_step_keys_visited (friendsOf : String → List String) (depth : Nat)
    (s : LoopState) (h : ∀ x, x ∈ s.nodes.map Prod.fst ↔ x ∈ s.visited) :
    ∀ x, x ∈ (scan_step friendsOf depth s).nodes.map Prod.fst ↔
      x ∈ (scan_step friendsOf depth s).visited := by
  unfold scan_step
  cases hq : s.queue with
  | nil => exact h
  | cons hd rest =>
    obtain ⟨sid, d⟩ := hd
    by_cases hv : sid ∈ s.visited
    · simp only [hv, if_true]; exact h
    · simp only [hv, if_false]
      intro x
      have hnk : sid ∉ s.nodes.map Prod.fst := fun hk => hv ((h sid).mp hk)
      simp only [set_friends_keys, ensure_node_keys_of_not_mem s.nodes sid hnk,
        List.mem_append, List.mem_singleton]
      rw [h x]

theorem scan_loop_keys_visited (friendsOf : String → List String) (depth maxNodes fuel : Nat)
    (s : LoopState) (h : ∀ x, x ∈ s.nodes.map Prod.fst ↔ x ∈ s.visited) :
    ∀ x, x ∈ (scan_loop friendsOf depth maxNodes fuel s).nodes.map Prod.fst ↔
      x ∈ (scan_loop friendsOf depth maxNodes fuel s).visited := by
  induction fuel generalizing s with
  | zero => rw [scan_loop_zero]; exact h
  | succ n ih =>
    by_cases hg : loop_guard maxNodes s
    · rw [scan_loop_succ_of_guard _ _ _ _ _ hg]
      exact ih _ (scan_step_keys_visited friendsOf depth s h)
    · rw [scan_loop_of_not_guard _ _ _ _ _ hg]; exact h

/-! ### Facts about `_clean_edges` -/

theorem clean_edges_go_keep (keep : List String) (es : List Edge)
    (seen : List (String × String × EdgeKind)) :
    ∀ e ∈ clean_edges_go keep seen es, e.a ∈ keep ∧ e.b ∈ keep := by
  induction es generalizing seen with
  | nil => intro e he; simp [clean_edges_go] at he
  | cons e0 rest ih =>
    intro e he
    unfold clean_edges_go at he
    by_cases h1 : e0.a = "" ∨ e0.b = ""
    · rw [if_pos h1] at he; exact ih seen e he
    · rw [if_neg h1] at he
      by_cases h2 : ¬(e0.a ∈ keep ∧ e0.b ∈ keep)
      · rw [if_pos h2] at he; exact ih seen e he
      · rw [if_neg h2] at he
        by_cases h3 : edge_key e0 ∈ seen
        · rw [if_pos h3] at he; exact ih seen e he
        · rw [if_neg h3] at he
          rcases List.mem_cons.mp he with h | h
          · rw [h]; exact not_not.mp h2
          · exact ih _ e h

theorem clean_edges_go_keys_nodup (keep : List String) (es : List Edge)
    (seen : List (String × String × EdgeKind)) :
    ((clean_edges_go keep seen es).map edge_key).Nodup ∧
      ∀ k ∈ (clean_edges_go keep seen es).map edge_key, k ∉ seen := by
  induction es generalizing seen with
  | nil => simp [clean_edges_go]
  | cons e0 rest ih =>
    unfold clean_edges_go
    by_cases h1 : e0.a = "" ∨ e0.b = ""
    · rw [if_pos h1]; exact ih seen
    · rw [if_neg h1]
      by_cases h2 : ¬(e0.a ∈ keep ∧ e0.b ∈ keep)
      · rw [if_pos h2]; exact ih seen
      · rw [if_neg h2]
        by_cases h3 : edge_key e0 ∈ seen
        · rw [if_pos h3]; exact ih seen
        · rw [if_neg h3]
          obtain ⟨hnd, hnotin⟩ := ih (seen ++ [edge_key e0])
          constructor
          · rw [List.map_cons, List.nodup_cons]
            refine ⟨fun hmem => ?_, hnd⟩
            exact hnotin _ hmem (by simp)
          · intro k hk
            rw [List.map_cons, List.mem_cons] at hk
            rcases hk with hk | hk
            · rw [hk]; exact h3
            · intro hks
              exact hnotin k hk (by simp [hks])

/-- The enrichment phases after the BFS loop only touch existing entries:
the final node-map key list is exactly the key list left by the BFS. -/
theorem scan_network_keys (friendsOf : String → List String)
    (summaryOf : String → Option PSummary) (bansOf : String → Option BanRec)
    (groupsOf : String → List String) (seed : String) (depth rpm maxNodes : Nat)
    (skipPrivate includeGroupLinks : Bool) (resumeState : Option ScanState) (fuel : Nat) :
    (scan_network friendsOf summaryOf bansOf groupsOf seed depth rpm maxNodes
        skipPrivate includeGroupLinks resumeState fuel).nodes.map Prod.fst =
      (scan_bfs friendsOf seed depth maxNodes resumeState fuel).nodes.map Prod.fst := by
  unfold scan_network
  cases includeGroupLinks with
  | false => simp [enrich_nodes_keys]
  | true => simp [group_phase_keys, enrich_nodes_keys]

/-! ### Claim C1 -/

/-- Claim C1 (amended): for every oracle and configuration with node cap
`maxNodes`, provided the starting state's node map (empty for a fresh run;
the checkpoint's for a resumed run) has at most `maxNodes` entries, the
node map returned by `scan_network` has at most `maxNodes` entries; and the
enrichment passes after the BFS loop touch exactly the discovered node set:
the returned key list equals the BFS phase's key list.  (The unconditional
claim fails for a resumed run whose checkpoint already exceeds the cap, see
the counterexample.) -/
theorem scan_network_respects_cap
    (friendsOf : String → List String) (summaryOf : String → Option PSummary)
    (bansOf : String → Option BanRec) (groupsOf : String → List String)
    (seed : String) (depth rpm maxNodes : Nat) (skipPrivate includeGroupLinks : Bool)
    (resumeState : Option ScanState) (fuel : Nat)
    (h : (scan_init seed depth resumeState).nodes.length ≤ maxNodes) :
    (scan_network friendsOf summaryOf bansOf groupsOf seed depth rpm maxNodes skipPrivate
        includeGroupLinks resumeState fuel).nodes.length ≤ maxNodes ∧
      (scan_network friendsOf summaryOf bansOf groupsOf seed depth rpm maxNodes skipPrivate
          includeGroupLinks resumeState fuel).nodes.map Prod.fst =
        (scan_bfs friendsOf seed depth maxNodes resumeState fuel).nodes.map Prod.fst := by
  have hkeys := scan_network_keys friendsOf summaryOf bansOf groupsOf seed depth rpm maxNodes
    skipPrivate includeGroupLinks resumeState fuel
  refine ⟨?_, hkeys⟩
  have hlen : (scan_network friendsOf summaryOf bansOf groupsOf seed depth rpm maxNodes
      skipPrivate includeGroupLinks resumeState fuel).nodes.length =
      (scan_bfs friendsOf seed depth maxNodes resumeState fuel).nodes.length := by
    have h2 := congrArg List.length hkeys
    simpa using h2
  rw [hlen]
  have hb := scan_loop_nodes_le friendsOf depth maxNodes fuel (scan_start seed depth resumeState)
  have hstart : (scan_start seed depth resumeState).nodes.length ≤ maxNodes := h
  unfold scan_bfs
  omega

/-- Claim C1, counterexample to the unqualified statement: a checkpoint
produced by a completed 2-node crawl, resumed under node cap
`maxNodes = 1`, yields a node map with 2 > 1 entries. -/
theorem scan_network_cap_cx :
    1 < (scan_network (fun s => if s = "a" then ["b"] else []) (fun _ => none) (fun _ => none)
      (fun _ => []) "a" 1 60 1 false false
      (some (scan_network (fun s => if s = "a" then ["b"] else []) (fun _ => none)
        (fun _ => none) (fun _ => []) "a" 1 60 2 false false none 5)) 5).nodes.length := by
  decide

/-- Claim C1, witness: the amended bound applied to a concrete fresh run
under cap 3. -/
theorem scan_network_respects_cap_witness :
    (scan_init "a" 1 (none : Option ScanState)).nodes.length ≤ 3 ∧
      ((scan_network (fun s => if s = "a" then ["b"] else []) (fun _ => none) (fun _ => none)
          (fun _ => []) "a" 1 60 3 false false none 5).nodes.length ≤ 3 ∧
        (scan_network (fun s => if s = "a" then ["b"] else []) (fun _ => none) (fun _ => none)
            (fun _ => []) "a" 1 60 3 false false none 5).nodes.map Prod.fst =
          (scan_bfs (fun s => if s = "a" then ["b"] else []) "a" 1 3 none 5).nodes.map
            Prod.fst) :=
  ⟨by decide,
    scan_network_respects_cap (fun s => if s = "a" then ["b"] else []) (fun _ => none)
      (fun _ => none) (fun _ => []) "a" 1 60 3 false false none 5 (by decide)⟩

/-! ### Claim C6 -/

/-- Claim C6 (amended): self-loop friend edges are *not* dropped by the
crawl (see the counterexample for an oracle listing an identity as its own
friend); what does hold is the analytics-stage cleanup contract: the
cleaned edge table contains no edge referencing an identity absent from
the node map, and no duplicate `(unordered pair, kind)` entry. -/
theorem clean_edges_sound (nodes : List (String × Node)) (edges : List Edge) :
    (∀ e ∈ clean_edges nodes edges,
        e.a ∈ nodes.map Prod.fst ∧ e.b ∈ nodes.map Prod.fst) ∧
      ((clean_edges nodes edges).map edge_key).Nodup := by
  exact ⟨clean_edges_go_keep _ _ _, (clean_edges_go_keys_nodup _ _ _).1⟩

/-- Claim C6, counterexample: with an oracle under which the seed lists
itself as a friend, the returned edge list contains the self-loop
`("a","a")`, and the self-loop even survives the analytics-stage cleanup
(both endpoints are in the node map and the key is fresh). -/
theorem scan_network_self_loop_cx :
    ({ a := "a", b := "a", kind := EdgeKind.friend } : Edge) ∈
        (scan_network (fun s => if s = "a" then ["a"] else []) (fun _ => none) (fun _ => none)
          (fun _ => []) "a" 1 60 5 false false none 5).edges ∧
      ({ a := "a", b := "a", kind := EdgeKind.friend } : Edge) ∈
        clean_edges
          (scan_network (fun s => if s = "a" then ["a"] else []) (fun _ => none) (fun _ => none)
            (fun _ => []) "a" 1 60 5 false false none 5).nodes
          (scan_network (fun s => if s = "a" then ["a"] else []) (fun _ => none) (fun _ => none)
            (fun _ => []) "a" 1 60 5 false false none 5).edges := by
  decide

/-! ### Claim C7 -/

/-- Claim C7 (amended): the queue persisted by `scan_network` *may* contain
identities already in the visited set (see the counterexample); what holds
instead is that such stale entries are inert: (a) a queue entry whose
identity is visited is discarded by the loop with no fetch and no change to
`visited`, `nodes`, `edges` or the processed log; (b) on a resumed run, no
identity already in the checkpoint's visited set is ever processed
(fetched) again. -/
theorem scan_queue_stale_entries_inert (friendsOf : String → List String) (depth : Nat) :
    (∀ s : LoopState, ∀ sid d rest, s.queue = (sid, d) :: rest → sid ∈ s.visited →
        scan_step friendsOf depth s =
          { s with queue := rest, popLog := s.popLog ++ [(sid, d)] }) ∧
      ∀ seed maxNodes fuel (st : ScanState) (e : String × Nat),
        e ∈ (scan_bfs friendsOf seed depth maxNodes (some st) fuel).log →
          e.1 ∉ st.visited := by
  constructor
  · intro s sid d rest hq hv
    unfold scan_step
    rw [hq]
    simp [hv]
  · intro seed maxNodes fuel st e he
    unfold scan_bfs at he
    have h := scan_loop_log_fresh friendsOf depth maxNodes fuel
      (scan_start seed depth (some st)) e he
    rcases h with h | h
    · simp [scan_start] at h
    · exact h

/-- Claim C7, counterexample: the crawl that stops at node cap 3 with
oracle a↦[b,c], b↦[c,d] leaves `("c", 2)` in the persisted queue although
`c` is in the persisted visited set (it was discovered via two paths and
visited via the first). -/
theorem scan_queue_stale_entries_cx :
    "c" ∈ ((scan_network (fun s => if s = "a" then ["b", "c"]
          else if s = "b" then ["c", "d"] else []) (fun _ => none) (fun _ => none)
        (fun _ => []) "a" 2 60 3 false false none 10).queue.map Prod.fst) ∧
      "c" ∈ (scan_network (fun s => if s = "a" then ["b", "c"]
          else if s = "b" then ["c", "d"] else []) (fun _ => none) (fun _ => none)
        (fun _ => []) "a" 2 60 3 false false none 10).visited := by
  decide

/-- Claim C7, witness: the inertness statement applied to a concrete state
with a stale queue head and to a concrete resumed run. -/
theorem scan_queue_stale_entries_inert_witness :
    (scan_step (fun _ => ["b"]) 1
        { visited := ["a"], nodes := [], edges := [], queue := [("a", 0)], log := [],
          popLog := [], enqLog := [] } =
      { visited := ["a"], nodes := [], edges := [], queue := [], log := [],
        popLog := [("a", 0)], enqLog := [] }) ∧
      (("b", 1) ∈ (scan_bfs (fun _ => ["b"]) "a" 1 5
          (some { seed := "a"
                  nodes := []
                  edges := []
                  visited := ["a"]
                  queue := [("b", 1)]
                  metaDepth := 1 }) 5).log →
        "b" ∉ ["a"]) := by
  constructor
  · exact (scan_queue_stale_entries_inert (fun _ => ["b"]) 1).1
      { visited := ["a"], nodes := [], edges := [], queue := [("a", 0)], log := [],
        popLog := [], enqLog := [] } "a" 0 [] rfl (by decide)
  · exact fun he => (scan_queue_stale_entries_inert (fun _ => ["b"]) 1).2 "a" 5 5
      { seed := "a", nodes := [], edges := [], visited := ["a"], queue := [("b", 1)],
        metaDepth := 1 } ("b", 1) he

/-! ### Claim C10 -/

/-- Claim C10: on a fresh crawl the key set of the returned node map equals
the returned visited set — an identity acquires a `Node` entry exactly when
it is popped and its friend list fetched — and every edge kept by the
analytics-stage cleanup references only identities present in the node
map (so edges to discovered-but-never-popped identities are removed). -/
theorem scan_network_fresh_nodes_eq_visited (friendsOf : String → List String)
    (summaryOf : String → Option PSummary) (bansOf : String → Option BanRec)
    (groupsOf : String → List String) (seed : String) (depth rpm maxNodes : Nat)
    (skipPrivate includeGroupLinks : Bool) (fuel : Nat) :
    key_finset (scan_network friendsOf summaryOf bansOf groupsOf seed depth rpm maxNodes
          skipPrivate includeGroupLinks none fuel).nodes =
        (scan_network friendsOf summaryOf bansOf groupsOf seed depth rpm maxNodes
          skipPrivate includeGroupLinks none fuel).visited.toFinset ∧
      ∀ e ∈ clean_edges
          (scan_network friendsOf summaryOf bansOf groupsOf seed depth rpm maxNodes
            skipPrivate includeGroupLinks none fuel).nodes
          (scan_network friendsOf summaryOf bansOf groupsOf seed depth rpm maxNodes
            skipPrivate includeGroupLinks none fuel).edges,
        e.a ∈ (scan_network friendsOf summaryOf bansOf groupsOf seed depth rpm maxNodes
            skipPrivate includeGroupLinks none fuel).nodes.map Prod.fst ∧
          e.b ∈ (scan_network friendsOf summaryOf bansOf groupsOf seed depth rpm maxNodes
            skipPrivate includeGroupLinks none fuel).nodes.map Prod.fst := by
  constructor
  · have hmem := scan_loop_keys_visited friendsOf depth maxNodes fuel
      (scan_start seed depth none) (by intro x; simp [scan_start, scan_init])
    have hkeys := scan_network_keys friendsOf summaryOf bansOf groupsOf seed depth rpm
      maxNodes skipPrivate includeGroupLinks none fuel
    have hvis : (scan_network friendsOf summaryOf bansOf groupsOf seed depth rpm maxNodes
        skipPrivate includeGroupLinks none fuel).visited =
        (scan_bfs friendsOf seed depth maxNodes none fuel).visited := rfl
    unfold key_finset
    rw [hkeys, hvis]
    ext x
    simp only [List.mem_toFinset]
    exact hmem x
  · exact (clean_edges_sound _ _).1

/-! ### Claim C4: FIFO discipline and depth monotonicity -/

/-- One loop iteration moves material from the queue front to the pop log
and appends the same block to the queue back and the enqueue log. -/
theorem scan_step_fifo (friendsOf : String → List String) (depth : Nat) (s : LoopState) :
    ∃ Δ, (scan_step friendsOf depth s).popLog ++ (scan_step friendsOf depth s).queue =
        (s.popLog ++ s.queue) ++ Δ ∧
      (scan_step friendsOf depth s).enqLog = s.enqLog ++ Δ := by
  unfold scan_step
  cases hq : s.queue with
  | nil => exact ⟨[], by simp [hq], by simp⟩
  | cons hd rest =>
    obtain ⟨sid, d⟩ := hd
    by_cases hv : sid ∈ s.visited
    · exact ⟨[], by simp [hv], by simp [hv]⟩
    · refine ⟨if d < depth then
        ((friendsOf sid).filter fun f => !decide (f ∈ s.visited ++ [sid])).map
          fun f => (f, d + 1) else [], by simp [hv], by simp [hv]⟩

theorem scan_loop_fifo (friendsOf : String → List String) (depth maxNodes fuel : Nat)
    (s : LoopState) :
    ∃ Δ, (scan_loop friendsOf depth maxNodes fuel s).popLog ++
          (scan_loop friendsOf depth maxNodes fuel s).queue = (s.popLog ++ s.queue) ++ Δ ∧
      (scan_loop friendsOf depth maxNodes fuel s).enqLog = s.enqLog ++ Δ := by
  induction fuel generalizing s with
  | zero => rw [scan_loop_zero]; exact ⟨[], by simp, by simp⟩
  | succ n ih =>
    by_cases hg : loop_guard maxNodes s
    · rw [scan_loop_succ_of_guard _ _ _ _ _ hg]
      obtain ⟨δ1, hp1, he1⟩ := scan_step_fifo friendsOf depth s
      obtain ⟨δ2, hp2, he2⟩ := ih (scan_step friendsOf depth s)
      exact ⟨δ1 ++ δ2, by rw [hp2, hp1, List.append_assoc],
        by rw [he2, he1, List.append_assoc]⟩
    · rw [scan_loop_of_not_guard _ _ _ _ _ hg]; exact ⟨[], by simp, by simp⟩

theorem sorted_le_append_nat {l1 l2 : List Nat}
    (h1 : List.Sorted (· ≤ ·) l1) (h2 : List.Sorted (· ≤ ·) l2)
    (h : ∀ x ∈ l1, ∀ y ∈ l2, x ≤ y) : List.Sorted (· ≤ ·) (l1 ++ l2) :=
  List.pairwise_append.mpr ⟨h1, h2, h⟩

theorem sorted_le_of_all_eq (c : Nat) :
    ∀ l : List Nat, (∀ x ∈ l, x = c) → List.Sorted (· ≤ ·) l
  | [], _ => List.sorted_nil
  | x :: xs, h => by
    rw [List.sorted_cons]
    refine ⟨fun b hb => ?_, sorted_le_of_all_eq c xs fun y hy => h y (List.mem_cons_of_mem _ hy)⟩
    rw [h x (List.mem_cons_self _ _), h b (List.mem_cons_of_mem _ hb)]

theorem scan_step_depth_inv (friendsOf : String → List String) (depth : Nat)
    (s : LoopState) (h : depth_inv s) : depth_inv (scan_step friendsOf depth s) := by
  obtain ⟨hqs, hqb, hls, hlq⟩ := h
  unfold scan_step
  cases hq : s.queue with
  | nil => exact ⟨hqs, hqb, hls, hlq⟩
  | cons hd rest =>
    obtain ⟨sid, d⟩ := hd
    rw [hq] at hqs hqb hlq
    have hd_le : ∀ e ∈ rest, d ≤ e.2 := by
      rw [List.map_cons, List.sorted_cons] at hqs
      intro e he
      exact hqs.1 e.2 (List.mem_map_of_mem Prod.snd he)
    have hrest_sorted : List.Sorted (· ≤ ·) (rest.map Prod.snd) := by
      rw [List.map_cons, List.sorted_cons] at hqs
      exact hqs.2
    have hrest_le : ∀ e ∈ rest, e.2 ≤ d + 1 := by
      intro e he
      exact hqb e (List.mem_cons_of_mem _ he) (sid, d) (List.mem_cons_self _ _)
    by_cases hv : sid ∈ s.visited
    · simp only [hv, if_true]
      refine ⟨hrest_sorted, ?_, hls, ?_⟩
      · intro e1 h1 e2 h2
        exact hqb e1 (List.mem_cons_of_mem _ h1) e2 (List.mem_cons_of_mem _ h2)
      · intro t ht e he
        exact hlq t ht e (List.mem_cons_of_mem _ he)
    · simp only [hv, if_false]
      set newQ := if d < depth then
        ((friendsOf sid).filter fun f => !decide (f ∈ s.visited ++ [sid])).map
          fun f => (f, d + 1) else ([] : List (String × Nat)) with hnewQ
      have hnew_depth : ∀ e ∈ newQ, e.2 = d + 1 := by
        intro e he
        rw [hnewQ] at he
        by_cases hdd : d < depth
        · rw [if_pos hdd] at he
          obtain ⟨f, _, hf⟩ := List.mem_map.mp he
          rw [← hf]
        · rw [if_neg hdd] at he; simp at he
      refine ⟨?_, ?_, ?_, ?_⟩
      · rw [List.map_append]
        refine sorted_le_append_nat hrest_sorted ?_ ?_
        · refine sorted_le_of_all_eq (d + 1) _ fun x hx => ?_
          obtain ⟨e, he, hee⟩ := List.mem_map.mp hx
          rw [← hee, hnew_depth e he]
        · intro x hx y hy
          obtain ⟨ex, hex, hxx⟩ := List.mem_map.mp hx
          obtain ⟨ey, hey, hyy⟩ := List.mem_map.mp hy
          rw [← hxx, ← hyy, hnew_depth ey hey]
          exact hrest_le ex hex
      · intro e1 h1 e2 h2
        rcases List.mem_append.mp h1 with h1 | h1 <;> rcases List.mem_append.mp h2 with h2 | h2
        · exact hqb e1 (List.mem_cons_of_mem _ h1) e2 (List.mem_cons_of_mem _ h2)
        · rw [hnew_depth e2 h2]
          have := hrest_le e1 h1
          omega
        · rw [hnew_depth e1 h1]
          have := hd_le e2 h2
          omega
        · rw [hnew_depth e1 h1, hnew_depth e2 h2]
          omega
      · rw [List.map_append]
        refine sorted_le_append_nat hls (List.sorted_singleton _) ?_
        intro x hx y hy
        simp only [List.map_cons, List.map_nil, List.mem_singleton] at hy
        obtain ⟨t, ht, htt⟩ := List.mem_map.mp hx
        rw [← htt, hy]
        exact hlq t ht (sid, d) (List.mem_cons_self _ _)
      · intro t ht e he
        rcases List.mem_append.mp ht with ht | ht
        · rcases List.mem_append.mp he with he | he
          · exact hlq t ht e (List.mem_cons_of_mem _ he)
          · rw [hnew_depth e he]
            have := hlq t ht (sid, d) (List.mem_cons_self _ _)
            omega
        · simp only [List.mem_singleton] at ht
          rw [ht]
          rcases List.mem_append.mp he with he | he
          · exact hd_le e he
          · rw [hnew_depth e he]; omega

theorem scan_loop_depth_inv (friendsOf : String → List String) (depth maxNodes fuel : Nat)
    (s : LoopState) (h : depth_inv s) :
    depth_inv (scan_loop friendsOf depth maxNodes fuel s) := by
  induction fuel generalizing s with
  | zero => rw [scan_loop_zero]; exact h
  | succ n ih =>
    by_cases hg : loop_guard maxNodes s
    · rw [scan_loop_succ_of_guard _ _ _ _ _ hg]
      exact ih _ (scan_step_depth_inv friendsOf depth s h)
    · rw [scan_loop_of_not_guard _ _ _ _ _ hg]; exact h

/-- Claim C4: on a fresh crawl the loop consumes the queue in strict FIFO
order (every popped pair leaves the queue front, and the pop history plus
the remaining queue is exactly the seed entry followed by the enqueue
history, in order), and the depths of the processed `(identity, depth)`
pairs are non-decreasing over the run.  The popped sequence is
deterministic by construction: `scan_bfs` is a function of the oracle, the
seed and the configuration. -/
theorem scan_bfs_fifo_and_depth_sorted (friendsOf : String → List String) (seed : String)
    (depth maxNodes fuel : Nat) :
    (scan_bfs friendsOf seed depth maxNodes none fuel).popLog ++
        (scan_bfs friendsOf seed depth maxNodes none fuel).queue =
        (seed, 0) :: (scan_bfs friendsOf seed depth maxNodes none fuel).enqLog ∧
      List.Sorted (· ≤ ·)
        ((scan_bfs friendsOf seed depth maxNodes none fuel).log.map Prod.snd) := by
  constructor
  · obtain ⟨Δ, hp, he⟩ := scan_loop_fifo friendsOf depth maxNodes fuel
      (scan_start seed depth none)
    unfold scan_bfs
    rw [hp, he]
    simp [scan_start, scan_init]
  · have h := scan_loop_depth_inv friendsOf depth maxNodes fuel (scan_start seed depth none)
      (by
        refine ⟨?_, ?_, ?_, ?_⟩ <;> simp [scan_start, scan_init, depth_inv])
    exact h.2.2.1

/-! ### Claim C3 -/

/-- Claim C3: a failed fetch never raises to the crawl: `get_friend_list`
returns the empty list on a transport-level error, on every non-success
HTTP status, and on a malformed (non-JSON) payload; and the crawl treats an
identity whose fetch produced no data (empty friend list) as having none —
the pop is still processed, nothing is enqueued, no edge is appended, and
traversal continues with the next queue entry. -/
theorem get_friend_list_failure_empty (friendsOf : String → List String) (depth : Nat) :
    get_friend_list HttpResult.netError = Except.ok [] ∧
      (∀ status body, status ≠ 200 →
        get_friend_list (HttpResult.response status body) = Except.ok []) ∧
      (∀ status, get_friend_list (HttpResult.response status none) = Except.ok []) ∧
      ∀ (s : LoopState) sid d rest, s.queue = (sid, d) :: rest → sid ∉ s.visited →
        friendsOf sid = [] →
          (scan_step friendsOf depth s).queue = rest ∧
            (scan_step friendsOf depth s).edges = s.edges ∧
            (scan_step friendsOf depth s).visited = s.visited ++ [sid] ∧
            (scan_step friendsOf depth s).nodes =
              set_friends (ensure_node s.nodes sid) sid [] := by
  refine ⟨rfl, ?_, ?_, ?_⟩
  · intro status body h
    unfold get_friend_list api_get
    simp [h]
  · intro status
    unfold get_friend_list api_get
    by_cases h : status = 200 <;> simp [h]
  · intro s sid d rest hq hv hf
    unfold scan_step
    rw [hq]
    simp [hv, hf]

/-- Claim C3, witness: the failure cases at a concrete non-success
response, and the continuation behaviour at a concrete state whose seed has
no data. -/
theorem get_friend_list_failure_empty_witness :
    get_friend_list (HttpResult.response 500 (some (JVal.jobj []))) = Except.ok [] ∧
      get_friend_list (HttpResult.response 200 none) = Except.ok [] ∧
      (scan_step (fun _ => []) 1
          { visited := [], nodes := [], edges := [], queue := [("a", 0), ("b", 1)], log := [],
            popLog := [], enqLog := [] }).queue = [("b", 1)] ∧
      (scan_step (fun _ => []) 1
          { visited := [], nodes := [], edges := [], queue := [("a", 0), ("b", 1)], log := [],
            popLog := [], enqLog := [] }).edges = [] := by
  have h := get_friend_list_failure_empty (fun _ => []) 1
  have h4 := h.2.2.2
    { visited := [], nodes := [], edges := [], queue := [("a", 0), ("b", 1)], log := [],
      popLog := [], enqLog := [] } "a" 0 [("b", 1)] rfl (by decide) rfl
  exact ⟨h.2.1 500 (some (JVal.jobj [])) (by decide), h.2.2.1 200, h4.1, h4.2.1⟩

/-! ### Claim C8 -/

unseal Rat.add Rat.mul Rat.inv Rat.sub in
/-- Claim C8: on the concrete state where seed S has friends {A,B,C}, A's
friends are {S,B}, B's are {S,A,C}, C's are {S,B}, with the default weights
(mutual 1.0, jaccard 1.0, groups 0.5, games 0 — an empty weights dict), the
scorer computes mutual(A)=1, mutual(B)=2, mutual(C)=1, jaccard(B)=1/2
(intersection 2 over union 4, union floored at 1 when empty), jaccard(A)=
jaccard(C)=1/4, scores 5/2, 5/4, 5/4, and B heads the ranked output with
the strictly highest score (5/4 < 5/2). -/
theorem compute_probable_friends_example :
    compute_probable_friends
        { seed := "S"
          nodes := [("S", { steamid := "S", friends := some ["A", "B", "C"] }),
            ("A", { steamid := "A", friends := some ["S", "B"] }),
            ("B", { steamid := "B", friends := some ["S", "A", "C"] }),
            ("C", { steamid := "C", friends := some ["S", "B"] })]
          edges := []
          visited := []
          queue := []
          metaDepth := 1 } (fun _ => none) =
      [{ candidate := "B", score := 5 / 2, mutualCount := 2, jaccard := 1 / 2,
          sharedGroups := 0, sharedGames := 0 },
        { candidate := "A", score := 5 / 4, mutualCount := 1, jaccard := 1 / 4,
          sharedGroups := 0, sharedGames := 0 },
        { candidate := "C", score := 5 / 4, mutualCount := 1, jaccard := 1 / 4,
          sharedGroups := 0, sharedGames := 0 }] ∧
      (5 / 4 : ℚ) < 5 / 2 := by
  exact ⟨by decide, by decide⟩

/-! ### Claim C5 -/

theorem hub_cutoff_eq_spec (bet : List (String × ℚ)) (p : ℚ) :
    hub_cutoff bet p = hub_cutoff_spec bet p := by
  unfold hub_cutoff hub_cutoff_spec
  by_cases h : bet.isEmpty
  · rw [if_pos h, if_pos h]
  · rw [if_neg h, if_neg h]
    congr 1
    rw [← Int.floor_toNat]
    omega

theorem gadj_nil (v w : String) : gadj [] v w = false := by
  simp [gadj]

theorem paths_go_nil (V : List String) (t : String) (fuel : Nat) (cur : String)
    (avoid : List String) (h : cur ≠ t) : paths_go [] V t fuel cur avoid = [] := by
  cases fuel with
  | zero => simp [paths_go, h]
  | succ n =>
    unfold paths_go
    rw [if_neg h]
    have hf : V.filter (fun w => gadj [] cur w && !decide (w ∈ avoid)) = [] := by
      simp [gadj]
    rw [hf]
    rfl

theorem shortest_paths_nil (V : List String) (s t : String) (h : s ≠ t) :
    shortest_paths [] V s t = [] := by
  unfold shortest_paths
  rw [paths_go_nil V t V.length s [] h]
  rfl

theorem betweenness_nil (V : List String) :
    betweenness V [] = V.map fun v => (v, (0 : ℚ)) := by
  unfold betweenness
  apply List.map_congr_left
  intro v _
  congr 1
  apply List.sum_eq_zero
  intro x hx
  obtain ⟨s, hs, hxx⟩ := List.mem_map.mp hx
  rw [← hxx]
  apply List.sum_eq_zero
  intro y hy
  obtain ⟨t, ht, hyy⟩ := List.mem_map.mp hy
  rw [← hyy]
  by_cases hc : s = t ∨ v = s ∨ v = t
  · rw [if_pos hc]
  · rw [if_neg hc]
    have hst : s ≠ t := fun he => hc (Or.inl he)
    simp [shortest_paths_nil V s t hst]

theorem lookup_const_zero (V : List String) (v : String) (h : v ∈ V) :
    (V.map fun u => (u, (0 : ℚ))).lookup v = some 0 := by
  induction V with
  | nil => simp at h
  | cons a rest ih =>
    by_cases ha : v = a
    · subst ha; simp [List.lookup]
    · have hb : (v == a) = false := by simp [ha]
      have hm : v ∈ rest := by
        rcases List.mem_cons.mp h with h1 | h1
        · exact absurd h1 ha
        · exact h1
      simp [List.lookup, hb, ih hm]

theorem getD_zero_of_all_zero (l : List ℚ) (h : ∀ x ∈ l, x = 0) (n : Nat) :
    l.getD n 0 = 0 := by
  induction l generalizing n with
  | nil => simp [List.getD]
  | cons a rest ih =>
    cases n with
    | zero => simpa using h a (List.mem_cons_self _ _)
    | succ m =>
      rw [List.getD_cons_succ]
      exact ih (fun x hx => h x (List.mem_cons_of_mem _ hx)) m

theorem insert_desc_all {P : ℚ → Prop} (c : ℚ) (l : List ℚ) (hc : P c) (h : ∀ x ∈ l, P x) :
    ∀ x ∈ insert_desc c l, P x := by
  induction l with
  | nil => intro x hx; simp only [insert_desc, List.mem_singleton] at hx; rw [hx]; exact hc
  | cons a rest ih =>
    intro x hx
    unfold insert_desc at hx
    by_cases hle : a ≤ c
    · rw [if_pos hle] at hx
      rcases List.mem_cons.mp hx with h1 | h1
      · rw [h1]; exact hc
      · exact h x h1
    · rw [if_neg hle] at hx
      rcases List.mem_cons.mp hx with h1 | h1
      · rw [h1]; exact h a (List.mem_cons_self _ _)
      · exact ih (fun y hy => h y (List.mem_cons_of_mem _ hy)) x h1

theorem sort_desc_all {P : ℚ → Prop} (l : List ℚ) (h : ∀ x ∈ l, P x) :
    ∀ x ∈ sort_desc l, P x := by
  induction l with
  | nil => intro x hx; simp [sort_desc] at hx
  | cons a rest ih =>
    exact insert_desc_all a (sort_desc rest) (h a (List.mem_cons_self _ _))
      (ih fun y hy => h y (List.mem_cons_of_mem _ hy))

/-- Claim C5 (amended): the hub cut-off equals the value at 0-based rank
`max(0, floor(N·p) − 1)` of the betweenness values sorted descending (the
code's `int()`-truncated index agrees with the spec's floor formula), and a
vertex with a betweenness entry is flagged hub iff its value is ≥ the
cut-off.  However "no edges ⇒ no hubs" is wrong: the betweenness map is
empty only when there are no *vertices* (then indeed nothing is flagged);
a graph with vertices but no edges has an all-zero betweenness map, the
cut-off is 0, and *every* vertex is flagged as a hub. -/
theorem hub_threshold_correct :
    (∀ (bet : List (String × ℚ)) (p : ℚ), hub_cutoff bet p = hub_cutoff_spec bet p) ∧
      (∀ (bet : List (String × ℚ)) (p : ℚ) (sid : String), bet ≠ [] →
        (is_hub bet p sid = true ↔ hub_cutoff bet p ≤ (bet.lookup sid).getD 0)) ∧
      (∀ (p : ℚ) (sid : String), is_hub [] p sid = false) ∧
      ∀ (V : List String) (p : ℚ), V ≠ [] → ∀ v ∈ V,
        is_hub (betweenness V []) p v = true := by
  refine ⟨hub_cutoff_eq_spec, ?_, ?_, ?_⟩
  · intro bet p sid hne
    unfold is_hub
    rw [if_neg (by simpa [List.isEmpty_iff] using hne)]
    exact decide_eq_true_iff
  · intro p sid; rfl
  · intro V p hV v hv
    have hbet := betweenness_nil V
    have hall : ∀ x ∈ sort_desc ((V.map fun u => (u, (0 : ℚ))).map Prod.snd), x = 0 := by
      apply sort_desc_all
      intro x hx
      simp only [List.map_map, List.mem_map, Function.comp_apply] at hx
      obtain ⟨u, _, hu⟩ := hx
      exact hu.symm
    have hcut : hub_cutoff (V.map fun u => (u, (0 : ℚ))) p = 0 := by
      unfold hub_cutoff
      rw [if_neg (by simpa [List.isEmpty_iff] using fun hh => hV (by simpa using hh))]
      exact getD_zero_of_all_zero _ hall _
    unfold is_hub
    rw [hbet, if_neg (by simpa [List.isEmpty_iff] using fun hh => hV (by simpa using hh)),
      hcut, lookup_const_zero V v hv]
    decide

unseal Rat.add Rat.mul Rat.inv Rat.sub in
/-- Claim C5, counterexample: a graph with one vertex and no edges — the
betweenness map is the non-empty all-zero map, and the vertex *is*
classified as a hub, contradicting "if the graph has no edges, no vertex is
classified as a hub". -/
theorem hub_no_edges_cx : is_hub (betweenness ["x"] []) (99 / 100) "x" = true := by
  decide

/-- Claim C5, witness: the amended statement at concrete inputs. -/
theorem hub_threshold_correct_witness :
    hub_cutoff [("x", 5)] (1 / 2) = hub_cutoff_spec [("x", 5)] (1 / 2) ∧
      (is_hub [("x", 5)] (1 / 2) "x" = true ↔
        hub_cutoff [("x", 5)] (1 / 2) ≤ (([("x", (5 : ℚ))].lookup "x").getD 0)) ∧
      is_hub [] (1 / 2) "x" = false ∧
      is_hub (betweenness ["y"] []) (1 / 2) "y" = true :=
  ⟨hub_threshold_correct.1 _ _,
    hub_threshold_correct.2.1 [("x", 5)] (1 / 2) "x" (by decide),
    hub_threshold_correct.2.2.1 (1 / 2) "x",
    hub_threshold_correct.2.2.2 ["y"] (1 / 2) (by decide) "y" (by decide)⟩

/-! ### Group-edge machinery for resume idempotence (Claim C2) -/

theorem lookup_cons_self {β : Type} (l : List (String × β)) (k : String) (v : β) :
    ((k, v) :: l).lookup k = some v := by
  simp [List.lookup]

theorem lookup_cons_ne {β : Type} (l : List (String × β)) (k k' : String) (v : β)
    (h : k ≠ k') : ((k', v) :: l).lookup k = l.lookup k := by
  have hb : (k == k') = false := by simp [h]
  simp [List.lookup, hb]

theorem lookup_map_update (g : List (String × List String)) (gid0 gid : String)
    (f : List String → List String) :
    (g.map fun kv => if kv.1 = gid0 then (kv.1, f kv.2) else kv).lookup gid =
      if gid = gid0 then (g.lookup gid).map f else g.lookup gid := by
  induction g with
  | nil => by_cases h : gid = gid0 <;> simp [List.lookup, h]
  | cons kv rest ih =>
    obtain ⟨k, v⟩ := kv
    rw [List.map_cons]
    by_cases h1 : k = gid0
    · rw [if_pos h1]
      by_cases h2 : gid = k
      · subst h2
        rw [lookup_cons_self, lookup_cons_self, if_pos h1]
        rfl
      · rw [lookup_cons_ne _ _ _ _ h2, lookup_cons_ne _ _ _ _ h2, ih]
    · rw [if_neg h1]
      by_cases h2 : gid = k
      · subst h2
        rw [lookup_cons_self, lookup_cons_self, if_neg h1]
      · rw [lookup_cons_ne _ _ _ _ h2, lookup_cons_ne _ _ _ _ h2, ih]

theorem lookup_append_single_of_some {β : Type} (g : List (String × β)) (gid gid0 : String)
    (v w : β) (h : g.lookup gid = some w) : (g ++ [(gid0, v)]).lookup gid = some w := by
  induction g with
  | nil => simp [List.lookup] at h
  | cons kv rest ih =>
    obtain ⟨k, u⟩ := kv
    by_cases h2 : gid = k
    · subst h2
      rw [lookup_cons_self] at h
      rw [List.cons_append, lookup_cons_self]
      exact h
    · rw [lookup_cons_ne _ _ _ _ h2] at h
      rw [List.cons_append, lookup_cons_ne _ _ _ _ h2]
      exact ih h

theorem lookup_append_single_of_none {β : Type} (g : List (String × β)) (gid gid0 : String)
    (v : β) (h : g.lookup gid = none) :
    (g ++ [(gid0, v)]).lookup gid = if gid = gid0 then some v else none := by
  induction g with
  | nil =>
    by_cases h2 : gid = gid0
    · subst h2; rw [List.nil_append, lookup_cons_self, if_pos rfl]
    · rw [List.nil_append, lookup_cons_ne _ _ _ _ h2, if_neg h2]
      rfl
  | cons kv rest ih =>
    obtain ⟨k, u⟩ := kv
    by_cases h2 : gid = k
    · subst h2
      rw [lookup_cons_self] at h
      exact absurd h (by simp)
    · rw [lookup_cons_ne _ _ _ _ h2] at h
      rw [List.cons_append, lookup_cons_ne _ _ _ _ h2]
      exact ih h

theorem gmap_add_lookup (g : List (String × List String)) (gid0 sid0 gid : String) :
    ((gmap_add g gid0 sid0).lookup gid).getD [] =
      if gid = gid0 then ((g.lookup gid).getD []) ++ [sid0]
      else (g.lookup gid).getD [] := by
  unfold gmap_add
  cases hl : g.lookup gid0 with
  | some v =>
    show ((g.map fun kv =>
      if kv.1 = gid0 then (kv.1, kv.2 ++ [sid0]) else kv).lookup gid).getD [] = _
    rw [lookup_map_update g gid0 gid (fun l => l ++ [sid0])]
    by_cases h : gid = gid0
    · subst h
      rw [if_pos rfl, if_pos rfl, hl]
      rfl
    · rw [if_neg h, if_neg h]
  | none =>
    show ((g ++ [(gid0, [sid0])]).lookup gid).getD [] = _
    by_cases h : gid = gid0
    · subst h
      rw [lookup_append_single_of_none _ _ _ _ hl, if_pos rfl, if_pos rfl, hl]
      rfl
    · rw [if_neg h]
      cases hg : g.lookup gid with
      | some w => rw [lookup_append_single_of_some _ _ _ _ _ hg]
      | none =>
        rw [lookup_append_single_of_none _ _ _ _ hg, if_neg h]

theorem gmap_fold_groups_mem (gl : List String) (sid0 : String)
    (g : List (String × List String)) (gid sid : String) :
    sid ∈ ((gl.foldl (fun g2 gid2 => gmap_add g2 gid2 sid0) g).lookup gid).getD [] ↔
      sid ∈ (g.lookup gid).getD [] ∨ (sid = sid0 ∧ gid ∈ gl) := by
  induction gl generalizing g with
  | nil => simp
  | cons gid2 rest ih =>
    rw [List.foldl_cons, ih, gmap_add_lookup]
    by_cases h : gid = gid2
    · subst h
      rw [if_pos rfl]
      simp only [List.mem_append, List.mem_singleton, List.mem_cons]
      tauto
    · rw [if_neg h]
      simp only [List.mem_cons]
      tauto

theorem gmap_of_keys_mem_aux (groupsOf : String → List String) (passK : String → Bool)
    (ids : List String) (g : List (String × List String)) (gid sid : String) :
    sid ∈ ((ids.foldl
        (fun g2 sid2 =>
          if passK sid2 then (groupsOf sid2).foldl (fun g3 gid2 => gmap_add g3 gid2 sid2) g2
          else g2) g).lookup gid).getD [] ↔
      sid ∈ (g.lookup gid).getD [] ∨
        (sid ∈ ids ∧ passK sid = true ∧ gid ∈ groupsOf sid) := by
  induction ids generalizing g with
  | nil => simp
  | cons sid2 rest ih =>
    rw [List.foldl_cons, ih]
    by_cases hp : passK sid2 = true
    · rw [if_pos hp, gmap_fold_groups_mem]
      simp only [List.mem_cons]
      constructor
      · rintro ((h | ⟨rfl, hg⟩) | ⟨hmem, hpk, hg⟩)
        · exact Or.inl h
        · exact Or.inr ⟨Or.inl rfl, hp, hg⟩
        · exact Or.inr ⟨Or.inr hmem, hpk, hg⟩
      · rintro (h | ⟨rfl | hmem, hpk, hg⟩)
        · exact Or.inl (Or.inl h)
        · exact Or.inl (Or.inr ⟨rfl, hg⟩)
        · exact Or.inr ⟨hmem, hpk, hg⟩
    · rw [if_neg hp]
      simp only [List.mem_cons]
      constructor
      · rintro (h | ⟨hmem, hpk, hg⟩)
        · exact Or.inl h
        · exact Or.inr ⟨Or.inr hmem, hpk, hg⟩
      · rintro (h | ⟨rfl | hmem, hpk, hg⟩)
        · exact Or.inl h
        · exact absurd hpk hp
        · exact Or.inr ⟨hmem, hpk, hg⟩

theorem gmap_of_keys_mem (groupsOf : String → List String) (passK : String → Bool)
    (ids : List String) (gid sid : String) :
    sid ∈ ((gmap_of_keys groupsOf passK ids).lookup gid).getD [] ↔
      sid ∈ ids ∧ passK sid = true ∧ gid ∈ groupsOf sid := by
  unfold gmap_of_keys
  rw [gmap_of_keys_mem_aux]
  simp

theorem lookup_mem {β : Type} (g : List (String × β)) (k : String) (v : β)
    (h : g.lookup k = some v) : (k, v) ∈ g := by
  induction g with
  | nil => simp [List.lookup] at h
  | cons kv rest ih =>
    obtain ⟨k', v'⟩ := kv
    by_cases hk : k = k'
    · subst hk
      rw [lookup_cons_self] at h
      rw [(Option.some.injEq _ _).mp h]
      exact List.mem_cons_self _ _
    · rw [lookup_cons_ne _ _ _ _ hk] at h
      exact List.mem_cons_of_mem _ (ih h)

theorem pairs_of_mem_components (l : List String) (p : String × String)
    (h : p ∈ pairs_of l) : p.1 ∈ l ∧ p.2 ∈ l := by
  induction l with
  | nil => simp [pairs_of] at h
  | cons x rest ih =>
    unfold pairs_of at h
    rcases List.mem_append.mp h with h | h
    · obtain ⟨y, hy, hp⟩ := List.mem_map.mp h
      rw [← hp]
      exact ⟨List.mem_cons_self _ _, List.mem_cons_of_mem _ hy⟩
    · obtain ⟨h1, h2⟩ := ih h
      exact ⟨List.mem_cons_of_mem _ h1, List.mem_cons_of_mem _ h2⟩

theorem pairs_of_mem_of_mem (l : List String) (a b : String) (ha : a ∈ l) (hb : b ∈ l)
    (hne : a ≠ b) : (a, b) ∈ pairs_of l ∨ (b, a) ∈ pairs_of l := by
  induction l with
  | nil => simp at ha
  | cons x rest ih =>
    unfold pairs_of
    by_cases hxa : x = a
    · subst hxa
      have hbr : b ∈ rest := by
        rcases List.mem_cons.mp hb with h | h
        · exact absurd h.symm hne
        · exact h
      exact Or.inl (List.mem_append.mpr (Or.inl (List.mem_map_of_mem _ hbr)))
    · by_cases hxb : x = b
      · subst hxb
        have har : a ∈ rest := by
          rcases List.mem_cons.mp ha with h | h
          · exact absurd h hne
          · exact h
        exact Or.inr (List.mem_append.mpr (Or.inl (List.mem_map_of_mem _ har)))
      · have har : a ∈ rest := by
          rcases List.mem_cons.mp ha with h | h
          · exact absurd h.symm hxa
          · exact h
        have hbr : b ∈ rest := by
          rcases List.mem_cons.mp hb with h | h
          · exact absurd h.symm hxb
          · exact h
        rcases ih har hbr with h | h
        · exact Or.inl (List.mem_append.mpr (Or.inr h))
        · exact Or.inr (List.mem_append.mpr (Or.inr h))

theorem two_le_length_of_two_mem (l : List String) (a b : String) (ha : a ∈ l) (hb : b ∈ l)
    (hne : a ≠ b) : 2 ≤ l.length := by
  cases l with
  | nil => simp at ha
  | cons x rest =>
    cases rest with
    | nil =>
      simp only [List.mem_singleton] at ha hb
      exact absurd (ha.trans hb.symm) hne
    | cons y rest2 => simp only [List.length_cons]; omega

theorem dedup_first_mem (l : List String) : ∀ (seen : List String) (x : String),
    x ∈ dedup_first seen l ↔ x ∈ l ∧ x ∉ seen := by
  induction l with
  | nil => intro seen x; simp [dedup_first]
  | cons y ys ih =>
    intro seen x
    unfold dedup_first
    by_cases hy : y ∈ seen
    · rw [if_pos hy, ih]
      simp only [List.mem_cons]
      constructor
      · rintro ⟨h1, h2⟩; exact ⟨Or.inr h1, h2⟩
      · rintro ⟨h1 | h1, h2⟩
        · subst h1; exact absurd hy h2
        · exact ⟨h1, h2⟩
    · rw [if_neg hy]
      simp only [List.mem_cons, ih]
      constructor
      · rintro (rfl | ⟨h1, h2⟩)
        · exact ⟨Or.inl rfl, hy⟩
        · refine ⟨Or.inr h1, fun hx => h2 (List.mem_append.mpr (Or.inl hx))⟩
      · rintro ⟨h1 | h1, h2⟩
        · exact Or.inl h1
        · by_cases hxy : x = y
          · exact Or.inl hxy
          · refine Or.inr ⟨h1, fun hx => ?_⟩
            rcases List.mem_append.mp hx with h3 | h3
            · exact h2 h3
            · simp only [List.mem_singleton] at h3
              exact hxy h3

theorem dedup_first_nodup (l : List String) : ∀ seen : List String,
    (dedup_first seen l).Nodup := by
  induction l with
  | nil => intro seen; simp [dedup_first]
  | cons y ys ih =>
    intro seen
    unfold dedup_first
    by_cases hy : y ∈ seen
    · rw [if_pos hy]; exact ih seen
    · rw [if_neg hy]
      rw [List.nodup_cons]
      refine ⟨fun hmem => ?_, ih _⟩
      have := (dedup_first_mem ys (seen ++ [y]) y).mp hmem
      exact this.2 (List.mem_append.mpr (Or.inr (List.mem_singleton.mpr rfl)))

theorem pairs_of_ne_of_nodup (l : List String) (h : l.Nodup) :
    ∀ p ∈ pairs_of l, p.1 ≠ p.2 := by
  induction l with
  | nil => intro p hp; simp [pairs_of] at hp
  | cons x rest ih =>
    intro p hp
    rw [List.nodup_cons] at h
    unfold pairs_of at hp
    rcases List.mem_append.mp hp with hp | hp
    · obtain ⟨y, hy, hpy⟩ := List.mem_map.mp hp
      rw [← hpy]
      intro he
      have he' : x = y := he
      exact h.1 (he' ▸ hy)
    · exact ih h.2 p hp

theorem map_update_keys (g : List (String × List String)) (gid : String)
    (f : List String → List String) :
    ((g.map fun kv => if kv.1 = gid then (kv.1, f kv.2) else kv).map Prod.fst) =
      g.map Prod.fst := by
  rw [List.map_map]
  apply List.map_congr_left
  intro kv _
  simp only [Function.comp_apply]
  split <;> rfl

theorem gmap_add_nodup (g : List (String × List String)) (gid sid : String)
    (h : (g.map Prod.fst).Nodup) : ((gmap_add g gid sid).map Prod.fst).Nodup := by
  unfold gmap_add
  cases hl : g.lookup gid with
  | some v =>
    show ((g.map fun kv =>
      if kv.1 = gid then (kv.1, kv.2 ++ [sid]) else kv).map Prod.fst).Nodup
    rw [map_update_keys g gid (fun l => l ++ [sid])]
    exact h
  | none =>
    show (((g ++ [(gid, [sid])]).map Prod.fst)).Nodup
    rw [List.map_append]
    rw [List.nodup_append]
    refine ⟨h, by simp, ?_⟩
    intro x hx hx2
    simp only [List.map_cons, List.map_nil, List.mem_singleton] at hx2
    subst hx2
    have : (g.lookup x).isSome = true := (lookup_isSome_iff g x).mpr hx
    rw [hl] at this
    simp at this

theorem gmap_fold_groups_nodup (gl : List String) (sid : String)
    (g : List (String × List String)) (h : (g.map Prod.fst).Nodup) :
    (((gl.foldl (fun g2 gid2 => gmap_add g2 gid2 sid) g).map Prod.fst)).Nodup := by
  induction gl generalizing g with
  | nil => exact h
  | cons gid rest ih => exact ih _ (gmap_add_nodup g gid sid h)

theorem gmap_of_keys_nodup (groupsOf : String → List String) (passK : String → Bool)
    (ids : List String) : ((gmap_of_keys groupsOf passK ids).map Prod.fst).Nodup := by
  unfold gmap_of_keys
  suffices h : ∀ g : List (String × List String), (g.map Prod.fst).Nodup →
      ((ids.foldl
        (fun g2 sid2 =>
          if passK sid2 then (groupsOf sid2).foldl (fun g3 gid2 => gmap_add g3 gid2 sid2) g2
          else g2) g).map Prod.fst).Nodup by
    exact h [] (by simp)
  induction ids with
  | nil => intro g hg; exact hg
  | cons sid rest ih =>
    intro g hg
    rw [List.foldl_cons]
    by_cases hp : passK sid = true
    · rw [if_pos hp]
      exact ih _ (gmap_fold_groups_nodup _ _ _ hg)
    · rw [if_neg hp]
      exact ih _ hg

theorem lookup_of_mem_nodup {β : Type} (g : List (String × β))
    (h : (g.map Prod.fst).Nodup) (k : String) (v : β) (hm : (k, v) ∈ g) :
    g.lookup k = some v := by
  induction g with
  | nil => simp at hm
  | cons kv rest ih =>
    obtain ⟨k', v'⟩ := kv
    rw [List.map_cons, List.nodup_cons] at h
    rcases List.mem_cons.mp hm with hm2 | hm2
    · rw [Prod.ext_iff] at hm2
      obtain ⟨hk, hv⟩ := hm2
      simp only at hk hv
      subst hk
      subst hv
      exact lookup_cons_self rest k v
    · by_cases hk : k = k'
      · exfalso
        apply h.1
        show k' ∈ List.map Prod.fst rest
        rw [← hk]
        simpa using List.mem_map_of_mem Prod.fst hm2
      · rw [lookup_cons_ne _ _ _ _ hk]
        exact ih h.2 hm2

theorem edge_key_comm (a b : String) (k : EdgeKind) :
    edge_key { a := a, b := b, kind := k } = edge_key { a := b, b := a, kind := k } := by
  unfold edge_key
  by_cases h1 : b < a <;> by_cases h2 : a < b
  · exact absurd h2 (lt_asymm h1)
  · rw [if_pos h1, if_neg h2]
  · rw [if_neg h1, if_pos h2]
  · rw [if_neg h1, if_neg h2]
    have : a = b := le_antisymm (not_lt.mp h1) (not_lt.mp h2)
    rw [this]

/-- Every group edge generated from a smaller key list has a counterpart
(up to endpoint orientation) generated from any larger key list. -/
theorem grp_edges_keys_subset (groupsOf : String → List String) (passK : String → Bool)
    (ids1 ids2 : List String) (hsub : ∀ x ∈ ids1, x ∈ ids2) :
    ∀ e ∈ grp_edges_of_keys groupsOf passK ids1,
      ∃ e2 ∈ grp_edges_of_keys groupsOf passK ids2, edge_key e2 = edge_key e := by
  intro e he
  unfold grp_edges_of_keys grp_edges_of_gmap at he
  rw [List.mem_flatten] at he
  obtain ⟨blk, hblk, heblk⟩ := he
  obtain ⟨kv, hkv, hblkdef⟩ := List.mem_map.mp hblk
  by_cases hlen : kv.2.length < 2
  · rw [if_pos hlen] at hblkdef
    rw [← hblkdef] at heblk
    simp at heblk
  · rw [if_neg hlen] at hblkdef
    rw [← hblkdef] at heblk
    obtain ⟨p, hp, hpe⟩ := List.mem_map.mp heblk
    have hcomp := pairs_of_mem_components _ _ hp
    have hne : p.1 ≠ p.2 := pairs_of_ne_of_nodup _ (dedup_first_nodup kv.2 []) p hp
    have ha1 : p.1 ∈ kv.2 := ((dedup_first_mem kv.2 [] p.1).mp hcomp.1).1
    have hb1 : p.2 ∈ kv.2 := ((dedup_first_mem kv.2 [] p.2).mp hcomp.2).1
    -- identify kv.2 with the lookup of its gid in gmap1
    have hlk1 : (gmap_of_keys groupsOf passK ids1).lookup kv.1 = some kv.2 :=
      lookup_of_mem_nodup _ (gmap_of_keys_nodup groupsOf passK ids1) kv.1 kv.2 hkv
    have hmem1a : p.1 ∈ ((gmap_of_keys groupsOf passK ids1).lookup kv.1).getD [] := by
      rw [hlk1]; exact ha1
    have hmem1b : p.2 ∈ ((gmap_of_keys groupsOf passK ids1).lookup kv.1).getD [] := by
      rw [hlk1]; exact hb1
    have hch_a := (gmap_of_keys_mem groupsOf passK ids1 kv.1 p.1).mp hmem1a
    have hch_b := (gmap_of_keys_mem groupsOf passK ids1 kv.1 p.2).mp hmem1b
    -- transfer to the larger key list
    have hmem2a : p.1 ∈ ((gmap_of_keys groupsOf passK ids2).lookup kv.1).getD [] :=
      (gmap_of_keys_mem groupsOf passK ids2 kv.1 p.1).mpr
        ⟨hsub _ hch_a.1, hch_a.2.1, hch_a.2.2⟩
    have hmem2b : p.2 ∈ ((gmap_of_keys groupsOf passK ids2).lookup kv.1).getD [] :=
      (gmap_of_keys_mem groupsOf passK ids2 kv.1 p.2).mpr
        ⟨hsub _ hch_b.1, hch_b.2.1, hch_b.2.2⟩
    cases hlk2 : (gmap_of_keys groupsOf passK ids2).lookup kv.1 with
    | none => rw [hlk2] at hmem2a; simp at hmem2a
    | some v2 =>
      rw [hlk2] at hmem2a hmem2b
      simp only [Option.getD_some] at hmem2a hmem2b
      have hv2len : ¬ v2.length < 2 := by
        have := two_le_length_of_two_mem v2 p.1 p.2 hmem2a hmem2b hne
        omega
      have hda : p.1 ∈ dedup_first [] v2 := (dedup_first_mem v2 [] p.1).mpr ⟨hmem2a, by simp⟩
      have hdb : p.2 ∈ dedup_first [] v2 := (dedup_first_mem v2 [] p.2).mpr ⟨hmem2b, by simp⟩
      have hmem_gmap2 : (kv.1, v2) ∈ gmap_of_keys groupsOf passK ids2 := lookup_mem _ _ _ hlk2
      rcases pairs_of_mem_of_mem _ p.1 p.2 hda hdb hne with hpp | hpp
      · refine ⟨{ a := p.1, b := p.2, kind := EdgeKind.group }, ?_, ?_⟩
        · unfold grp_edges_of_keys grp_edges_of_gmap
          rw [List.mem_flatten]
          refine ⟨_, List.mem_map.mpr ⟨(kv.1, v2), hmem_gmap2, rfl⟩, ?_⟩
          show _ ∈ (if v2.length < 2 then ([] : List Edge)
            else (pairs_of (dedup_first [] v2)).map fun q =>
              ({ a := q.1, b := q.2, kind := EdgeKind.group } : Edge))
          rw [if_neg hv2len]
          exact List.mem_map_of_mem _ hpp
        · rw [← hpe]
      · refine ⟨{ a := p.2, b := p.1, kind := EdgeKind.group }, ?_, ?_⟩
        · unfold grp_edges_of_keys grp_edges_of_gmap
          rw [List.mem_flatten]
          refine ⟨_, List.mem_map.mpr ⟨(kv.1, v2), hmem_gmap2, rfl⟩, ?_⟩
          show _ ∈ (if v2.length < 2 then ([] : List Edge)
            else (pairs_of (dedup_first [] v2)).map fun q =>
              ({ a := q.1, b := q.2, kind := EdgeKind.group } : Edge))
          rw [if_neg hv2len]
          exact List.mem_map_of_mem _ hpp
        · rw [← hpe, edge_key_comm]

theorem group_phase_edges (groupsOf : String → List String) (skipPrivate : Bool)
    (enr : List (String × Node)) :
    (group_phase groupsOf skipPrivate enr).2 =
      grp_edges_of_gmap (group_phase_gmap groupsOf skipPrivate enr) := rfl

/-- After enrichment, the `skip_private` filter depends only on the
identity, so the group→member index is a function of the node key list. -/
theorem group_phase_gmap_enrich (groupsOf : String → List String) (skipPrivate : Bool)
    (summaryOf : String → Option PSummary) (bansOf : String → Option BanRec)
    (ns : List (String × Node)) :
    group_phase_gmap groupsOf skipPrivate (enrich_nodes summaryOf bansOf ns) =
      gmap_of_keys groupsOf (pass_key summaryOf skipPrivate) (ns.map Prod.fst) := by
  unfold group_phase_gmap gmap_of_keys enrich_nodes
  rw [List.foldl_map, List.foldl_map]
  apply List.foldl_ext
  intro g kv _
  have hc : (!skipPrivate ||
      (enrich_node summaryOf bansOf kv.1 kv.2).is_public.getD false) =
      pass_key summaryOf skipPrivate kv.1 := by
    unfold enrich_node pass_key
    rfl
  rw [hc]

theorem group_phase_edges_enrich (groupsOf : String → List String) (skipPrivate : Bool)
    (summaryOf : String → Option PSummary) (bansOf : String → Option BanRec)
    (ns : List (String × Node)) :
    (group_phase groupsOf skipPrivate (enrich_nodes summaryOf bansOf ns)).2 =
      grp_edges_of_keys groupsOf (pass_key summaryOf skipPrivate) (ns.map Prod.fst) := by
  rw [group_phase_edges, group_phase_gmap_enrich]
  rfl

/-- The edge list returned by `scan_network` is the BFS phase's edge list
followed by the group edges (empty when group links are disabled), the
latter a function of the BFS phase's node key list. -/
theorem scan_network_edges (friendsOf : String → List String)
    (summaryOf : String → Option PSummary) (bansOf : String → Option BanRec)
    (groupsOf : String → List String) (seed : String) (depth rpm maxNodes : Nat)
    (skipPrivate includeGroupLinks : Bool) (resumeState : Option ScanState) (fuel : Nat) :
    (scan_network friendsOf summaryOf bansOf groupsOf seed depth rpm maxNodes skipPrivate
        includeGroupLinks resumeState fuel).edges =
      (scan_bfs friendsOf seed depth maxNodes resumeState fuel).edges ++
        (if includeGroupLinks then
          grp_edges_of_keys groupsOf (pass_key summaryOf skipPrivate)
            ((scan_bfs friendsOf seed depth maxNodes resumeState fuel).nodes.map Prod.fst)
        else []) := by
  unfold scan_network
  cases includeGroupLinks with
  | false => simp
  | true =>
    simp only [if_pos]
    rw [group_phase_edges_enrich]

theorem scan_network_visited (friendsOf : String → List String)
    (summaryOf : String → Option PSummary) (bansOf : String → Option BanRec)
    (groupsOf : String → List String) (seed : String) (depth rpm maxNodes : Nat)
    (skipPrivate includeGroupLinks : Bool) (resumeState : Option ScanState) (fuel : Nat) :
    (scan_network friendsOf summaryOf bansOf groupsOf seed depth rpm maxNodes skipPrivate
        includeGroupLinks resumeState fuel).visited =
      (scan_bfs friendsOf seed depth maxNodes resumeState fuel).visited := rfl

theorem scan_network_queue (friendsOf : String → List String)
    (summaryOf : String → Option PSummary) (bansOf : String → Option BanRec)
    (groupsOf : String → List String) (seed : String) (depth rpm maxNodes : Nat)
    (skipPrivate includeGroupLinks : Bool) (resumeState : Option ScanState) (fuel : Nat) :
    (scan_network friendsOf summaryOf bansOf groupsOf seed depth rpm maxNodes skipPrivate
        includeGroupLinks resumeState fuel).queue =
      (scan_bfs friendsOf seed depth maxNodes resumeState fuel).queue := rfl

theorem edge_key_finset_append (l1 l2 : List Edge) :
    edge_key_finset (l1 ++ l2) = edge_key_finset l1 ∪ edge_key_finset l2 := by
  unfold edge_key_finset
  rw [List.map_append, List.toFinset_append]

/-! ### Claim C2 -/

/-- Claim C2: resume idempotence.  For a fixed oracle family and
configuration, crawling to completion in one invocation (final queue
empty), versus crawling partially under a smaller node cap (stopping early:
non-empty saved queue), persisting the returned state, and resuming it to
completion under the original cap, yields the same final node key set and
the same final edge set (compared as unordered, deduplicated sets of
canonical `(unordered pair, kind)` keys); moreover, on the resumed run no
identity already in the checkpoint's visited set has its friend list
fetched again. -/
theorem scan_resume_idempotent (friendsOf : String → List String)
    (summaryOf : String → Option PSummary) (bansOf : String → Option BanRec)
    (groupsOf : String → List String) (seed : String) (depth rpm K1 K2 : Nat)
    (skipPrivate includeGroupLinks : Bool) (P F R : Nat) (hK : K1 ≤ K2)
    (hFull : (scan_bfs friendsOf seed depth K2 none F).queue = [])
    (hPart : (scan_bfs friendsOf seed depth K1 none P).queue ≠ [])
    (hRes : (scan_bfs friendsOf seed depth K2
        (some (scan_network friendsOf summaryOf bansOf groupsOf seed depth rpm K1
          skipPrivate includeGroupLinks none P)) R).queue = []) :
    key_finset (scan_network friendsOf summaryOf bansOf groupsOf seed depth rpm K2
        skipPrivate includeGroupLinks
        (some (scan_network friendsOf summaryOf bansOf groupsOf seed depth rpm K1
          skipPrivate includeGroupLinks none P)) R).nodes =
      key_finset (scan_network friendsOf summaryOf bansOf groupsOf seed depth rpm K2
        skipPrivate includeGroupLinks none F).nodes ∧
    edge_key_finset (scan_network friendsOf summaryOf bansOf groupsOf seed depth rpm K2
        skipPrivate includeGroupLinks
        (some (scan_network friendsOf summaryOf bansOf groupsOf seed depth rpm K1
          skipPrivate includeGroupLinks none P)) R).edges =
      edge_key_finset (scan_network friendsOf summaryOf bansOf groupsOf seed depth rpm K2
        skipPrivate includeGroupLinks none F).edges ∧
    ∀ e ∈ (scan_bfs friendsOf seed depth K2
        (some (scan_network friendsOf summaryOf bansOf groupsOf seed depth rpm K1
          skipPrivate includeGroupLinks none P)) R).log,
      e.1 ∉ (scan_network friendsOf summaryOf bansOf groupsOf seed depth rpm K1
        skipPrivate includeGroupLinks none P).visited := by
  set part := scan_network friendsOf summaryOf bansOf groupsOf seed depth rpm K1
    skipPrivate includeGroupLinks none P with hpartdef
  set s0 := scan_start seed depth (none : Option ScanState) with hs0def
  set B1 := scan_loop friendsOf depth K1 P s0 with hB1def
  have hpart_keys : part.nodes.map Prod.fst = B1.nodes.map Prod.fst :=
    scan_network_keys friendsOf summaryOf bansOf groupsOf seed depth rpm K1
      skipPrivate includeGroupLinks none P
  have hpart_visited : part.visited = B1.visited :=
    scan_network_visited friendsOf summaryOf bansOf groupsOf seed depth rpm K1
      skipPrivate includeGroupLinks none P
  have hpart_queue : part.queue = B1.queue :=
    scan_network_queue friendsOf summaryOf bansOf groupsOf seed depth rpm K1
      skipPrivate includeGroupLinks none P
  have hpart_edges : part.edges = B1.edges ++
      (if includeGroupLinks then
        grp_edges_of_keys groupsOf (pass_key summaryOf skipPrivate)
          (B1.nodes.map Prod.fst) else []) :=
    scan_network_edges friendsOf summaryOf bansOf groupsOf seed depth rpm K1
      skipPrivate includeGroupLinks none P
  have hPq : part.queue ≠ [] := by rw [hpart_queue]; exact hPart
  set sR := scan_start seed depth (some part) with hsRdef
  have hsR_visited : sR.visited = part.visited := rfl
  have hsR_nodes : sR.nodes = part.nodes := rfl
  have hsR_edges : sR.edges = part.edges := rfl
  have hsR_log : sR.log = ([] : List (String × Nat)) := rfl
  have hsR_queue : sR.queue = part.queue := by
    show (if part.queue = [] then [(seed, 0)] else part.queue) = part.queue
    rw [if_neg hPq]
  have hAgree : LoopAgree sR B1 := by
    refine ⟨?_, ?_, ?_⟩
    · rw [hsR_visited, hpart_visited]
    · rw [hsR_queue, hpart_queue]
    · rw [hsR_nodes, hpart_keys]
  set BR := scan_loop friendsOf depth K2 R sR with hBRdef
  set C := scan_loop friendsOf depth K2 R B1 with hCdef
  obtain ⟨hAg, δ, hER, hEC⟩ := scan_loop_agree friendsOf depth K2 R sR B1 hAgree
  obtain ⟨P', hP'⟩ := scan_loop_cap_mono friendsOf depth K1 K2 hK P s0
  have hBRq : BR.queue = [] := hRes
  have hCq : C.queue = [] := by rw [hCdef, ← hAg.2.1]; exact hBRq
  have h1 : C = scan_loop friendsOf depth K2 (P' + R) s0 := by
    rw [hCdef, hB1def, hP', ← scan_loop_add]
  have hfix := scan_loop_complete_unique friendsOf depth K2 (P' + R) F s0
    (by rw [← h1]; exact hCq) hFull
  have hCB2 : C = scan_loop friendsOf depth K2 F s0 := h1.trans hfix
  have hkeys_res : (scan_network friendsOf summaryOf bansOf groupsOf seed depth rpm K2
      skipPrivate includeGroupLinks (some part) R).nodes.map Prod.fst =
      BR.nodes.map Prod.fst :=
    scan_network_keys friendsOf summaryOf bansOf groupsOf seed depth rpm K2
      skipPrivate includeGroupLinks (some part) R
  have hkeys_full : (scan_network friendsOf summaryOf bansOf groupsOf seed depth rpm K2
      skipPrivate includeGroupLinks none F).nodes.map Prod.fst =
      (scan_loop friendsOf depth K2 F s0).nodes.map Prod.fst :=
    scan_network_keys friendsOf summaryOf bansOf groupsOf seed depth rpm K2
      skipPrivate includeGroupLinks none F
  have hkeyseq : BR.nodes.map Prod.fst =
      (scan_loop friendsOf depth K2 F s0).nodes.map Prod.fst :=
    hAg.2.2.trans (by rw [← hCdef, hCB2])
  refine ⟨?_, ?_, ?_⟩
  · unfold key_finset
    rw [hkeys_res, hkeyseq, ← hkeys_full]
  · have hres_edges : (scan_network friendsOf summaryOf bansOf groupsOf seed depth rpm K2
        skipPrivate includeGroupLinks (some part) R).edges = BR.edges ++
        (if includeGroupLinks then
          grp_edges_of_keys groupsOf (pass_key summaryOf skipPrivate)
            (BR.nodes.map Prod.fst) else []) :=
      scan_network_edges friendsOf summaryOf bansOf groupsOf seed depth rpm K2
        skipPrivate includeGroupLinks (some part) R
    have hfull_edges : (scan_network friendsOf summaryOf bansOf groupsOf seed depth rpm K2
        skipPrivate includeGroupLinks none F).edges =
        (scan_loop friendsOf depth K2 F s0).edges ++
        (if includeGroupLinks then
          grp_edges_of_keys groupsOf (pass_key summaryOf skipPrivate)
            ((scan_loop friendsOf depth K2 F s0).nodes.map Prod.fst) else []) :=
      scan_network_edges friendsOf summaryOf bansOf groupsOf seed depth rpm K2
        skipPrivate includeGroupLinks none F
    have hBRedges : BR.edges = (B1.edges ++
        (if includeGroupLinks then
          grp_edges_of_keys groupsOf (pass_key summaryOf skipPrivate)
            (B1.nodes.map Prod.fst) else [])) ++ δ := by
      rw [hER, hsR_edges, hpart_edges]
    have hCedges : (scan_loop friendsOf depth K2 F s0).edges = B1.edges ++ δ := by
      rw [← hCB2]; exact hEC
    have hsubids : ∀ x ∈ B1.nodes.map Prod.fst,
        x ∈ (scan_loop friendsOf depth K2 F s0).nodes.map Prod.fst := by
      have hpre := scan_loop_keys_isPre friendsOf depth K2 R B1
      rw [← hCdef, hCB2] at hpre
      exact fun x hx => hpre.subset hx
    have hsubG : ∀ k ∈ edge_key_finset
        (if includeGroupLinks then
          grp_edges_of_keys groupsOf (pass_key summaryOf skipPrivate)
            (B1.nodes.map Prod.fst) else []),
        k ∈ edge_key_finset
          (if includeGroupLinks then
            grp_edges_of_keys groupsOf (pass_key summaryOf skipPrivate)
              ((scan_loop friendsOf depth K2 F s0).nodes.map Prod.fst) else []) := by
      cases includeGroupLinks with
      | false => intro k hk; simp [edge_key_finset] at hk
      | true =>
        intro k hk
        simp only [if_pos] at hk ⊢
        unfold edge_key_finset at hk ⊢
        rw [List.mem_toFinset] at hk ⊢
        obtain ⟨e, he, hke⟩ := List.mem_map.mp hk
        obtain ⟨e2, he2, hkey⟩ := grp_edges_keys_subset groupsOf
          (pass_key summaryOf skipPrivate) (B1.nodes.map Prod.fst)
          ((scan_loop friendsOf depth K2 F s0).nodes.map Prod.fst) hsubids e he
        rw [← hke, ← hkey]
        exact List.mem_map_of_mem edge_key he2
    rw [hres_edges, hfull_edges, hBRedges, hCedges, hkeyseq]
    rw [edge_key_finset_append, edge_key_finset_append, edge_key_finset_append,
      edge_key_finset_append, edge_key_finset_append]
    ext k
    simp only [Finset.mem_union]
    constructor
    · rintro (((hk | hk) | hk) | hk)
      · exact Or.inl (Or.inl hk)
      · exact Or.inr (hsubG k hk)
      · exact Or.inl (Or.inr hk)
      · exact Or.inr hk
    · rintro ((hk | hk) | hk)
      · exact Or.inl (Or.inl (Or.inl hk))
      · exact Or.inl (Or.inr hk)
      · exact Or.inr hk
  · intro e he
    have hlog := scan_loop_log_fresh friendsOf depth K2 R sR e he
    rcases hlog with h | h
    · rw [hsR_log] at h; simp at h
    · rw [← hsR_visited]
      exact h

/-- Claim C2, witness: a concrete partial (cap 2) + resume (cap 10) run
against the oracle a↦[b], b↦[c] matches the one-shot full run. -/
theorem scan_resume_idempotent_witness :
    key_finset (scan_network (fun s => if s = "a" then ["b"] else if s = "b" then ["c"] else [])
        (fun _ => none) (fun _ => none) (fun _ => []) "a" 2 60 10 false true
        (some (scan_network (fun s => if s = "a" then ["b"] else if s = "b" then ["c"] else [])
          (fun _ => none) (fun _ => none) (fun _ => []) "a" 2 60 2 false true none 10))
        10).nodes =
      key_finset (scan_network
        (fun s => if s = "a" then ["b"] else if s = "b" then ["c"] else [])
        (fun _ => none) (fun _ => none) (fun _ => []) "a" 2 60 10 false true none 10).nodes ∧
    edge_key_finset (scan_network
        (fun s => if s = "a" then ["b"] else if s = "b" then ["c"] else [])
        (fun _ => none) (fun _ => none) (fun _ => []) "a" 2 60 10 false true
        (some (scan_network (fun s => if s = "a" then ["b"] else if s = "b" then ["c"] else [])
          (fun _ => none) (fun _ => none) (fun _ => []) "a" 2 60 2 false true none 10))
        10).edges =
      edge_key_finset (scan_network
        (fun s => if s = "a" then ["b"] else if s = "b" then ["c"] else [])
        (fun _ => none) (fun _ => none) (fun _ => []) "a" 2 60 10 false true none 10).edges ∧
    ∀ e ∈ (scan_bfs (fun s => if s = "a" then ["b"] else if s = "b" then ["c"] else [])
        "a" 2 10
        (some (scan_network (fun s => if s = "a" then ["b"] else if s = "b" then ["c"] else [])
          (fun _ => none) (fun _ => none) (fun _ => []) "a" 2 60 2 false true none 10))
        10).log,
      e.1 ∉ (scan_network (fun s => if s = "a" then ["b"] else if s = "b" then ["c"] else [])
        (fun _ => none) (fun _ => none) (fun _ => []) "a" 2 60 2 false true none 10).visited :=
  scan_resume_idempotent
    (fun s => if s = "a" then ["b"] else if s = "b" then ["c"] else [])
    (fun _ => none) (fun _ => none) (fun _ => []) "a" 2 60 2 10 false true 10 10 10
    (by decide) (by decide) (by decide) (by decide)

/-! ### Claim C9: rate limiter -/

theorem rl_last_cons_cons (a b : ℚ) (l : List ℚ) :
    rl_last (a :: b :: l) = rl_last (b :: l) := rfl

theorem rl_last_append (l : List ℚ) (T : ℚ) : rl_last (l ++ [T]) = T := by
  induction l with
  | nil => rfl
  | cons a xs ih =>
    cases xs with
    | nil => rfl
    | cons b ys =>
      rw [List.cons_append, List.cons_append, rl_last_cons_cons, ← List.cons_append, ih]

theorem rl_last_cons_of_ne_nil (a : ℚ) (l : List ℚ) (h : l ≠ []) :
    rl_last (a :: l) = rl_last l := by
  cases l with
  | nil => exact absurd rfl h
  | cons b ys => rfl

theorem rl_last_mem_cons (b : ℚ) (ys : List ℚ) : rl_last (b :: ys) ∈ b :: ys := by
  induction ys generalizing b with
  | nil => exact List.mem_singleton.mpr rfl
  | cons c zs ih =>
    rw [rl_last_cons_cons]
    exact List.mem_cons_of_mem _ (ih c)

theorem sorted_le_last (l : List ℚ) (h : List.Sorted (· ≤ ·) l) :
    ∀ t ∈ l, t ≤ rl_last l := by
  induction l with
  | nil => intro t ht; simp at ht
  | cons a xs ih =>
    intro t ht
    rw [List.sorted_cons] at h
    cases xs with
    | nil =>
      simp only [List.mem_singleton] at ht
      rw [ht]
      exact le_refl _
    | cons b ys =>
      rw [rl_last_cons_cons]
      rcases List.mem_cons.mp ht with ht1 | ht1
      · subst ht1
        exact h.1 _ (rl_last_mem_cons b ys)
      · exact ih h.2 t ht1

theorem dropWhile_head_false {α : Type} (p : α → Bool) (l : List α) (h : α) (rest : List α)
    (he : l.dropWhile p = h :: rest) : p h = false := by
  induction l with
  | nil => simp [List.dropWhile] at he
  | cons a xs ih =>
    rw [List.dropWhile_cons] at he
    by_cases hp : p a = true
    · rw [if_pos hp] at he
      exact ih he
    · rw [if_neg hp] at he
      have : a = h := (List.cons.injEq _ _ _ _).mp he |>.1
      rw [← this]
      exact Bool.not_eq_true _ |>.mp hp

/-- A sorted list in which any two entries R apart differ by more than 60
has at most R entries in any closed window of length 60. -/
theorem sorted_gap_window (R : Nat) :
    ∀ l : List ℚ, List.Sorted (· ≤ ·) l →
      (∀ i j (hi : i < l.length) (hj : j < l.length), i + R ≤ j →
        l.get ⟨j, hj⟩ - l.get ⟨i, hi⟩ > 60) →
      ∀ w : ℚ, (l.filter fun t => decide (w ≤ t ∧ t ≤ w + 60)).length ≤ R := by
  intro l
  induction l with
  | nil => intro _ _ w; simp
  | cons a xs ih =>
    intro hsorted hgap w
    have hsx : List.Sorted (· ≤ ·) xs := (List.sorted_cons.mp hsorted).2
    have hgx : ∀ i j (hi : i < xs.length) (hj : j < xs.length), i + R ≤ j →
        xs.get ⟨j, hj⟩ - xs.get ⟨i, hi⟩ > 60 := by
      intro i j hi hj hij
      have h1 : i + 1 < (a :: xs).length := by simp; omega
      have h2 : j + 1 < (a :: xs).length := by simp; omega
      have := hgap (i + 1) (j + 1) h1 h2 (by omega)
      simpa using this
    rw [List.filter_cons]
    by_cases hpa : (decide (w ≤ a ∧ a ≤ w + 60)) = true
    · rw [if_pos hpa]
      have hR1 : 1 ≤ R := by
        by_contra hc
        have hR0 : R = 0 := by omega
        have h0 : 0 < (a :: xs).length := by simp
        have := hgap 0 0 h0 h0 (by omega)
        linarith
      have hxs_count : (xs.filter fun t => decide (w ≤ t ∧ t ≤ w + 60)).length ≤ R - 1 := by
        by_contra hc
        push_neg at hc
        -- at least R window entries in xs: one of them sits at index ≥ R - 1
        have hsplit : (xs.filter fun t => decide (w ≤ t ∧ t ≤ w + 60)).length =
            ((xs.take (R - 1)).filter fun t => decide (w ≤ t ∧ t ≤ w + 60)).length +
            ((xs.drop (R - 1)).filter fun t => decide (w ≤ t ∧ t ≤ w + 60)).length := by
          conv_lhs => rw [← List.take_append_drop (R - 1) xs]
          rw [List.filter_append, List.length_append]
        have htake : ((xs.take (R - 1)).filter fun t =>
            decide (w ≤ t ∧ t ≤ w + 60)).length ≤ R - 1 := by
          calc ((xs.take (R - 1)).filter fun t => decide (w ≤ t ∧ t ≤ w + 60)).length
              ≤ (xs.take (R - 1)).length := List.length_filter_le _ _
            _ ≤ R - 1 := by rw [List.length_take]; omega
        have hdrop_pos : 0 < ((xs.drop (R - 1)).filter fun t =>
            decide (w ≤ t ∧ t ≤ w + 60)).length := by omega
        obtain ⟨t, htmem⟩ := List.exists_mem_of_length_pos hdrop_pos
        have htdrop : t ∈ xs.drop (R - 1) := (List.mem_filter.mp htmem).1
        have htp : (decide (w ≤ t ∧ t ≤ w + 60)) = true := (List.mem_filter.mp htmem).2
        obtain ⟨⟨k, hk⟩, hkt⟩ := List.mem_iff_get.mp htdrop
        have hkx : R - 1 + k < xs.length := by
          rw [List.length_drop] at hk
          omega
        have hget : xs.get ⟨R - 1 + k, hkx⟩ = t := by
          rw [← hkt]
          rw [List.get_drop]
        have hj : R - 1 + k + 1 < (a :: xs).length := by simp; omega
        have h0 : 0 < (a :: xs).length := by simp
        have hbig := hgap 0 (R - 1 + k + 1) h0 hj (by omega)
        have hga : (a :: xs).get ⟨0, h0⟩ = a := rfl
        have hgt : (a :: xs).get ⟨R - 1 + k + 1, hj⟩ = xs.get ⟨R - 1 + k, hkx⟩ := rfl
        rw [hga, hgt, hget] at hbig
        have hpa' := of_decide_eq_true hpa
        have htp' := of_decide_eq_true htp
        linarith [hpa'.1, htp'.2]
      have := ih hsx hgx w
      simp only [List.length_cons]
      omega
    · rw [if_neg hpa]
      exact ih hsx hgx w

theorem get_append_left_q {l1 l2 : List ℚ} (i : Nat) (h : i < l1.length)
    (h2 : i < (l1 ++ l2).length) : (l1 ++ l2).get ⟨i, h2⟩ = l1.get ⟨i, h⟩ := by
  rw [List.get_append]

theorem get_concat_last_q (l : List ℚ) (a : ℚ) (h : l.length < (l ++ [a]).length) :
    (l ++ [a]).get ⟨l.length, h⟩ = a := by
  rw [List.get_eq_getElem]
  simp

theorem get_congr_q (l1 l2 : List ℚ) (hl : l1 = l2) (i : Nat) (h1 : i < l1.length)
    (h2 : i < l2.length) : l1.get ⟨i, h1⟩ = l2.get ⟨i, h2⟩ := by
  subst hl
  rfl

theorem get_append_head_q (l1 l2 : List ℚ) (t0 : ℚ) (tl : List ℚ) (h2 : l2 = t0 :: tl)
    (h : l1.length < (l1 ++ l2).length) :
    (l1 ++ l2).get ⟨l1.length, h⟩ = t0 := by
  subst h2
  induction l1 with
  | nil => rfl
  | cons a as ih => simpa using ih (by simp)

theorem RLInv_init (R : Nat) : RLInv R ([], []) := by
  refine ⟨⟨[], rfl, by simp⟩, List.sorted_nil, ?_⟩
  intro i j hi hj hij
  simp at hi

theorem rl_wait_inv (R : Nat) (hR : 1 ≤ R) (calls log : List ℚ) (d : ℚ × ℚ)
    (hd1 : 0 ≤ d.1) (hd2 : 0 ≤ d.2) (h : RLInv R (calls, log)) :
    RLInv R (rl_wait R (calls, log) d).1 := by
  obtain ⟨⟨pre, hlog, hstale⟩, hsorted, hgap⟩ := h
  set now := rl_last log + d.1 with hnow
  set kept := rl_drop_old now calls with hkeptdef
  set slept := (if R ≤ kept.length then rl_sleep_for now kept else 0) with hsleptdef
  set T := now + slept + d.2 with hTdef
  have hgoal : (rl_wait R (calls, log) d).1 = (kept ++ [T], log ++ [T]) := rfl
  rw [hgoal]
  have hlast_now : rl_last log ≤ now := by rw [hnow]; linarith
  have hmem_now : ∀ t ∈ log, t ≤ now := fun t ht =>
    le_trans (sorted_le_last log hsorted t ht) hlast_now
  have hslept0 : (0 : ℚ) ≤ slept := by
    rw [hsleptdef]
    by_cases hb : R ≤ kept.length
    · rw [if_pos hb]
      cases kept with
      | nil => exact le_refl 0
      | cons t0 ktail => exact le_max_left 0 _
    · rw [if_neg hb]
  have hnow_T : now ≤ T := by rw [hTdef]; linarith
  have hsplit : calls.takeWhile (fun t => decide (now - t > 60)) ++ kept = calls := by
    rw [hkeptdef]
    exact List.takeWhile_append_dropWhile _ _
  have hdropped : ∀ t ∈ calls.takeWhile (fun t => decide (now - t > 60)), now - t > 60 := by
    intro u hu
    have h1 := List.mem_takeWhile_imp hu
    simp only [decide_eq_true_eq] at h1
    exact h1
  have hlog2 : log = (pre ++ calls.takeWhile (fun t => decide (now - t > 60))) ++ kept := by
    rw [List.append_assoc, hsplit]
    exact hlog
  set pre' := pre ++ calls.takeWhile (fun t => decide (now - t > 60)) with hpre'
  have hpre'_stale : ∀ t ∈ pre', now - t > 60 := by
    intro t ht
    rcases List.mem_append.mp ht with ht | ht
    · have := hstale t ht
      linarith
    · exact hdropped t ht
  have hsorted' : List.Sorted (· ≤ ·) (log ++ [T]) := by
    apply List.pairwise_append.mpr
    refine ⟨hsorted, by simp, ?_⟩
    intro x hx y hy
    simp only [List.mem_singleton] at hy
    subst hy
    linarith [hmem_now x hx]
  refine ⟨⟨pre', ?_, ?_⟩, hsorted', ?_⟩
  · show log ++ [T] = pre' ++ (kept ++ [T])
    rw [← List.append_assoc, ← hlog2]
  · intro t ht
    show rl_last (log ++ [T]) - t > 60
    rw [rl_last_append]
    have := hpre'_stale t ht
    linarith
  · intro i j hi hj hij
    have hlen : (log ++ [T]).length = log.length + 1 := by simp
    have hj' : j < log.length + 1 := by rw [← hlen]; exact hj
    have hi' : i < log.length + 1 := by rw [← hlen]; exact hi
    by_cases hjl : j < log.length
    · have hil : i < log.length := by omega
      rw [get_append_left_q i hil, get_append_left_q j hjl]
      exact hgap i j hil hjl hij
    · have hjeq : j = log.length := by omega
      have e2 : (log ++ [T]).get ⟨j, hj⟩ = T := by
        have hje : (⟨j, hj⟩ : Fin (log ++ [T]).length) = ⟨log.length, by simp⟩ := by
          rw [Fin.mk.injEq]
          exact hjeq
        rw [hje]
        exact get_concat_last_q log T (by simp)
      rw [e2]
      have hRlen : R ≤ log.length := by omega
      have hil : i < log.length := by omega
      have histar_lt : log.length - R < log.length := by omega
      rw [get_append_left_q i hil]
      have hmono : log.get ⟨i, hil⟩ ≤ log.get ⟨log.length - R, histar_lt⟩ := by
        rcases Nat.lt_or_ge i (log.length - R) with hlt | hge
        · exact hsorted.rel_get_of_lt (Fin.mk_lt_mk.mpr hlt)
        · have hieq : i = log.length - R := by omega
          have : (⟨i, hil⟩ : Fin log.length) = ⟨log.length - R, histar_lt⟩ := by
            rw [Fin.mk.injEq]
            exact hieq
          rw [this]
      suffices hstar : T - log.get ⟨log.length - R, histar_lt⟩ > 60 by linarith
      have hm'len : log.length = pre'.length + kept.length := by
        rw [hlog2]
        simp
      by_cases hbr : R ≤ kept.length
      · -- sleep branch
        have hLR : kept.length ≤ R := by
          by_contra hc
          push_neg at hc
          have h1lt : pre'.length < log.length := by omega
          have hlast_lt : log.length - 1 < log.length := by omega
          have hgap2 := hgap pre'.length (log.length - 1) h1lt hlast_lt (by omega)
          cases hk : kept with
          | nil => rw [hk] at hc; simp at hc
          | cons t0 ktail =>
            have hb2 : pre'.length < (pre' ++ kept).length := by
              rw [← hlog2]
              exact h1lt
            have hget0 : log.get ⟨pre'.length, h1lt⟩ = t0 :=
              (get_congr_q log (pre' ++ kept) hlog2 pre'.length h1lt hb2).trans
                (get_append_head_q pre' kept t0 ktail hk hb2)
            have ht0false : (decide (now - t0 > 60)) = false := by
              apply dropWhile_head_false (fun t => decide (now - t > 60)) calls t0 ktail
              have : rl_drop_old now calls = t0 :: ktail := by rw [← hkeptdef]; exact hk
              exact this
            have ht0 : ¬(now - t0 > 60) := of_decide_eq_false ht0false
            have hlastmem := List.get_mem log (log.length - 1) hlast_lt
            have hlast_le := hmem_now _ hlastmem
            rw [hget0] at hgap2
            linarith
        have hLeq : kept.length = R := le_antisymm hLR hbr
        have histar_eq : log.length - R = pre'.length := by omega
        cases hk : kept with
        | nil =>
          rw [hk] at hLeq
          simp at hLeq
          omega
        | cons t0 ktail =>
          have h1lt : pre'.length < log.length := by
            rw [hk] at hm'len
            simp at hm'len
            omega
          have hb2 : pre'.length < (pre' ++ kept).length := by
            rw [← hlog2]
            exact h1lt
          have hget0 : log.get ⟨pre'.length, h1lt⟩ = t0 :=
            (get_congr_q log (pre' ++ kept) hlog2 pre'.length h1lt hb2).trans
              (get_append_head_q pre' kept t0 ktail hk hb2)
          have hgetstar : log.get ⟨log.length - R, histar_lt⟩ = t0 := by
            rw [← hget0]
            congr 1
            rw [Fin.mk.injEq]
            exact histar_eq
          have hsleep_ge : 60 - (now - t0) + 1 / 100 ≤ slept := by
            rw [hsleptdef, if_pos hbr, hk]
            exact le_max_right _ _
          have hTbound : t0 + 60 + 1 / 100 ≤ T := by
            rw [hTdef]
            linarith
          rw [hgetstar]
          linarith
      · -- no-sleep branch
        push_neg at hbr
        have histar_pre : log.length - R < pre'.length := by omega
        have hb2 : log.length - R < (pre' ++ kept).length := by
          rw [← hlog2]
          exact histar_lt
        have hget_star : log.get ⟨log.length - R, histar_lt⟩ =
            pre'.get ⟨log.length - R, histar_pre⟩ :=
          (get_congr_q log (pre' ++ kept) hlog2 _ histar_lt hb2).trans
            (get_append_left_q _ histar_pre hb2)
        have hmem : log.get ⟨log.length - R, histar_lt⟩ ∈ pre' := by
          rw [hget_star]
          exact List.get_mem _ _ _
        have := hpre'_stale _ hmem
        linarith

theorem rl_drop_old_subset (now : ℚ) (calls : List ℚ) :
    ∀ t ∈ rl_drop_old now calls, t ∈ calls := by
  intro t ht
  exact (List.dropWhile_sublist _).subset ht

theorem rl_foldl_inv (R : Nat) (hR : 1 ≤ R) (steps : List (ℚ × ℚ))
    (st : List ℚ × List ℚ) :
    (∀ d ∈ steps, 0 ≤ d.1 ∧ 0 ≤ d.2) → RLInv R st →
      RLInv R (steps.foldl (fun st d => (rl_wait R st d).1) st) := by
  induction steps generalizing st with
  | nil =>
    intro _ h
    exact h
  | cons d rest ih =>
    intro hd h
    simp only [List.foldl_cons]
    exact ih ((rl_wait R st d).1) (fun e he => hd e (List.mem_cons_of_mem d he))
      (rl_wait_inv R hR st.1 st.2 d (hd d (List.mem_cons_self d rest)).1
        (hd d (List.mem_cons_self d rest)).2 h)

theorem rl_wait_sleep_le (R : Nat) (st : List ℚ × List ℚ) (d : ℚ × ℚ)
    (hd1 : 0 ≤ d.1) (h : RLInv R st) : (rl_wait R st d).2 ≤ 60 + 1 / 100 := by
  obtain ⟨⟨pre, hlog, _⟩, hsorted, _⟩ := h
  show (if R ≤ (rl_drop_old (rl_last st.2 + d.1) st.1).length
      then rl_sleep_for (rl_last st.2 + d.1) (rl_drop_old (rl_last st.2 + d.1) st.1)
      else 0) ≤ 60 + 1 / 100
  set now := rl_last st.2 + d.1 with hnow
  set kept := rl_drop_old now st.1 with hkept
  by_cases hb : R ≤ kept.length
  · rw [if_pos hb]
    cases hk : kept with
    | nil =>
      show (0 : ℚ) ≤ 60 + 1 / 100
      norm_num
    | cons t0 tl =>
      show max 0 (60 - (now - t0) + 1 / 100) ≤ 60 + 1 / 100
      have ht0' : t0 ∈ rl_drop_old now st.1 := by
        rw [← hkept, hk]
        exact List.mem_cons_self _ _
      have ht0_calls : t0 ∈ st.1 := rl_drop_old_subset now st.1 t0 ht0'
      have ht0_log : t0 ∈ st.2 := by
        rw [hlog]
        exact List.mem_append_right pre ht0_calls
      have ht0_le : t0 ≤ now := by
        have := sorted_le_last st.2 hsorted t0 ht0_log
        rw [hnow]
        linarith
      apply max_le
      · norm_num
      · linarith
  · rw [if_neg hb]
    norm_num

theorem rl_sleeps_aux (R : Nat) (hR : 1 ≤ R) (steps : List (ℚ × ℚ))
    (st : List ℚ × List ℚ) (acc : List ℚ) :
    (∀ d ∈ steps, 0 ≤ d.1 ∧ 0 ≤ d.2) → RLInv R st → (∀ s ∈ acc, s ≤ 60 + 1 / 100) →
      ∀ s ∈ (steps.foldl
          (fun a d => ((rl_wait R a.1 d).1, a.2 ++ [(rl_wait R a.1 d).2])) (st, acc)).2,
        s ≤ 60 + 1 / 100 := by
  induction steps generalizing st acc with
  | nil =>
    intro _ _ hacc
    simpa using hacc
  | cons d rest ih =>
    intro hd h hacc
    simp only [List.foldl_cons]
    apply ih _ _ (fun e he => hd e (List.mem_cons_of_mem d he))
    · exact rl_wait_inv R hR st.1 st.2 d (hd d (List.mem_cons_self d rest)).1
        (hd d (List.mem_cons_self d rest)).2 h
    · intro s hs
      rcases List.mem_append.mp hs with hs | hs
      · exact hacc s hs
      · rw [List.mem_singleton] at hs
        subst hs
        exact rl_wait_sleep_le R st d (hd d (List.mem_cons_self d rest)).1 h

/-! ### Claim C9 -/

/-- Claim C9: with the per-minute ceiling clamped to at least 1
(`self.rpm = max(1, rpm)`), every sequential run of `wait()` calls on a
monotonic clock (non-negative elapsed time before and during each call)
records at most `max 1 rpm` call timestamps inside any closed 60-second
sliding window, and every call returns: each sleep lasts at most
`60 + 0.01` seconds, so no call blocks forever. -/
theorem rate_limiter_window (rpm : Nat) (steps : List (ℚ × ℚ))
    (hd : ∀ d ∈ steps, 0 ≤ d.1 ∧ 0 ≤ d.2) :
    (∀ w : ℚ, window_count (rl_run (max 1 rpm) steps).2 w ≤ max 1 rpm) ∧
    ∀ s ∈ rl_sleeps (max 1 rpm) steps, s ≤ 60 + 1 / 100 := by
  have hR : 1 ≤ max 1 rpm := le_max_left 1 rpm
  have hinv := rl_foldl_inv (max 1 rpm) hR steps ([], []) hd (RLInv_init (max 1 rpm))
  constructor
  · intro w
    obtain ⟨_, hsorted, hgap⟩ := hinv
    exact sorted_gap_window (max 1 rpm) _ hsorted hgap w
  · exact rl_sleeps_aux (max 1 rpm) hR steps ([], []) [] hd (RLInv_init (max 1 rpm))
      (by intro s hs; simp at hs)

/-- Concrete instance of `rate_limiter_window`: three back-to-back calls with
an rpm of 2 and no clock advance. -/
theorem rate_limiter_window_witness :
    (∀ d ∈ [((0 : ℚ), (0 : ℚ)), (0, 0), (0, 0)], 0 ≤ d.1 ∧ 0 ≤ d.2) ∧
    (∀ w : ℚ, window_count (rl_run (max 1 2) [((0 : ℚ), (0 : ℚ)), (0, 0), (0, 0)]).2 w
      ≤ max 1 2) ∧
    ∀ s ∈ rl_sleeps (max 1 2) [((0 : ℚ), (0 : ℚ)), (0, 0), (0, 0)], s ≤ 60 + 1 / 100 := by
  have hd : ∀ d ∈ [((0 : ℚ), (0 : ℚ)), (0, 0), (0, 0)], 0 ≤ d.1 ∧ 0 ≤ d.2 := by
    intro e he
    simp only [List.mem_cons, List.not_mem_nil, or_false] at he
    rcases he with h | h | h <;> (rw [h]; exact ⟨le_refl 0, le_refl 0⟩)
  exact ⟨hd, (rate_limiter_window 2 _ hd).1, (rate_limiter_window 2 _ hd).2⟩
